import Mathlib

/-!
Verification of the chunked-extraction and graph-merging pipeline of the
financial-detective repository.

The development shallowly embeds the Python sources:
  * `src/schema.py`        -- data model (Node, Relationship, KnowledgeGraph)
  * `src/graph_merger.py`  -- merge_graphs and its helper
  * `src/validator.py`     -- validate_and_repair_graph
  * `src/extractor/__init__.py` -- the per-chunk orchestration loop
  * `src/chunker.py`       -- estimate_tokens, split_text, the boundary trimmer

Python machine integers are arbitrary precision, so they are embedded as
`Nat`/`Int` directly.  Fallible functions (the ones that `raise`) return
`Option`/`Except`.  Python dicts that are only ever read through lookups are
embedded as association lists where insertion prepends (so a later insertion
shadows an earlier one exactly as a dict assignment overwrites).
-/

/-! ### Decimal rendering of naturals

Python renders an `int` in an f-string as its decimal numeral.  `natDigitsRev`
computes the little-endian decimal digits with structural fuel (fuel `n + 1`
always suffices for input `n`), and `natStr` the decimal string. -/

def natDigitsRev (fuel : Nat) (n : Nat) : List Nat :=
  match fuel with
  | 0 => []
  | f + 1 => if n < 10 then [n] else n % 10 :: natDigitsRev f (n / 10)

def natStr (n : Nat) : String :=
  ⟨((natDigitsRev (n + 1) n).reverse.map Nat.digitChar)⟩

theorem natDigitsRev_fuel {f₁ f₂ n : Nat} (h₁ : n < f₁) (h₂ : n < f₂) :
    natDigitsRev f₁ n = natDigitsRev f₂ n := by
  induction n using Nat.strong_induction_on generalizing f₁ f₂ with
  | _ n ih =>
    match f₁, f₂ with
    | g₁ + 1, g₂ + 1 =>
      simp only [natDigitsRev]
      by_cases h : n < 10
      · simp [h]
      · simp only [h, if_false]
        have hd : n / 10 < n := Nat.div_lt_self (by omega) (by omega)
        exact congrArg (n % 10 :: ·)
          (ih (n / 10) hd (show n / 10 < g₁ by omega) (show n / 10 < g₂ by omega))

theorem natDigitsRev_ne_nil {f n : Nat} (h : n < f) : natDigitsRev f n ≠ [] := by
  match f with
  | g + 1 =>
    simp only [natDigitsRev]
    by_cases h10 : n < 10 <;> simp [h10]

theorem natDigitsRev_lt_ten {f n : Nat} : ∀ d ∈ natDigitsRev f n, d < 10 := by
  induction f generalizing n with
  | zero => simp [natDigitsRev]
  | succ g ih =>
    intro d hd
    simp only [natDigitsRev] at hd
    by_cases h10 : n < 10
    · simp [h10] at hd; omega
    · simp only [h10, if_false, List.mem_cons] at hd
      rcases hd with h | h
      · omega
      · exact ih d h

theorem natDigitsRev_inj {a b : Nat} :
    natDigitsRev (a + 1) a = natDigitsRev (b + 1) b → a = b := by
  induction a using Nat.strong_induction_on generalizing b with
  | _ a ih =>
    intro h
    simp only [natDigitsRev] at h
    by_cases ha : a < 10 <;> by_cases hb : b < 10
    · simp [ha, hb] at h; exact h
    · simp only [ha, hb, if_true, if_false] at h
      have hne : natDigitsRev b (b / 10) ≠ [] :=
        @natDigitsRev_ne_nil b (b / 10) (Nat.div_lt_self (by omega) (by omega))
      simp at h
      first
      | exact (hne h.2.symm).elim
      | exact (hne h.2).elim
    · simp only [ha, hb, if_false, if_true] at h
      have hne : natDigitsRev a (a / 10) ≠ [] :=
        @natDigitsRev_ne_nil a (a / 10) (Nat.div_lt_self (by omega) (by omega))
      simp at h
      first
      | exact (hne h.2.symm).elim
      | exact (hne h.2).elim
    · simp only [ha, hb, if_false, List.cons.injEq] at h
      have hda : a / 10 < a := Nat.div_lt_self (by omega) (by omega)
      have hdb : b / 10 < b := Nat.div_lt_self (by omega) (by omega)
      have h2 : natDigitsRev (a / 10 + 1) (a / 10) = natDigitsRev (b / 10 + 1) (b / 10) := by
        rw [@natDigitsRev_fuel a (a / 10 + 1) (a / 10) (by omega) (by omega)] at h
        rw [h.2, @natDigitsRev_fuel b (b / 10 + 1) (b / 10) (by omega) (by omega)]
      have := ih (a / 10) hda h2
      omega

theorem digitChar_inj_lt : ∀ a b : Fin 10,
    Nat.digitChar a.val = Nat.digitChar b.val → a = b := by decide

theorem map_digitChar_inj : ∀ {l₁ l₂ : List Nat}, (∀ d ∈ l₁, d < 10) →
    (∀ d ∈ l₂, d < 10) → l₁.map Nat.digitChar = l₂.map Nat.digitChar → l₁ = l₂ := by
  intro l₁
  induction l₁ with
  | nil => intro l₂ _ _ h; cases l₂ <;> simp_all
  | cons a l ih =>
    intro l₂ h₁ h₂ h
    cases l₂ with
    | nil => simp at h
    | cons b m =>
      simp only [List.map_cons, List.cons.injEq] at h
      have ha : a < 10 := h₁ a (by simp)
      have hb : b < 10 := h₂ b (by simp)
      have hab : a = b :=
        congrArg Fin.val (digitChar_inj_lt ⟨a, ha⟩ ⟨b, hb⟩ h.1)
      refine List.cons.injEq .. |>.mpr ⟨hab, ih ?_ ?_ h.2⟩
      · exact fun d hd => h₁ d (by simp [hd])
      · exact fun d hd => h₂ d (by simp [hd])

theorem natStr_inj {a b : Nat} (h : natStr a = natStr b) : a = b := by
  have hl : ((natDigitsRev (a + 1) a).reverse.map Nat.digitChar) =
      ((natDigitsRev (b + 1) b).reverse.map Nat.digitChar) := congrArg String.data h
  have := map_digitChar_inj
    (fun d hd => natDigitsRev_lt_ten d (List.mem_reverse.mp hd))
    (fun d hd => natDigitsRev_lt_ten d (List.mem_reverse.mp hd)) hl
  exact natDigitsRev_inj (List.reverse_injective this)

/-! ### Data model (`src/schema.py`)

The Pydantic schema restricts `Node.type` to the literals `Company`,
`RiskFactor`, `DollarAmount` and `Relationship.relation` to `OWNS`,
`HAS_RISK`, `REPORTS_AMOUNT`; both are embedded as closed inductive types.
`confidence` is an optional score that the pipeline only ever copies and never
computes with; its values are embedded as rationals. -/

inductive NodeType where
  | Company
  | RiskFactor
  | DollarAmount
deriving DecidableEq, Repr

inductive Relation where
  | OWNS
  | HAS_RISK
  | REPORTS_AMOUNT
deriving DecidableEq, Repr

structure Node where
  id : String
  type : NodeType
  name : String
deriving DecidableEq, Repr

structure Relationship where
  source : String
  target : String
  relation : Relation
  confidence : Option Rat
deriving DecidableEq, Repr

structure KnowledgeGraph where
  schema_version : String
  nodes : List Node
  relationships : List Relationship
deriving DecidableEq, Repr

/-! ### Graph merger (`src/graph_merger.py`) -/

/-- Embeds `_get_type_prefix`: the per-type head of generated canonical ids.
The dict covers all three schema types, so the `node_type.lower()` fallback
for unknown types is unreachable. -/
def type_head : NodeType → String
  | NodeType.Company => "company"
  | NodeType.RiskFactor => "risk"
  | NodeType.DollarAmount => "amount"

/-- Embeds the f-string `f"{type_prefix}_{type_counters[node.type]}"`. -/
def mkId (t : NodeType) (c : Nat) : String :=
  type_head t ++ "_" ++ natStr c

/-- Dedup key of a node: the `(type, name)` pair (`node_key` in the source). -/
def nodeKey (n : Node) : NodeType × String := (n.type, n.name)

/-- Mutable state of the first pass of `merge_graphs`: `node_key_to_id`,
`unique_nodes`, `id_mapping` and `type_counters`.  The two dicts are
association lists (insertion prepends, lookup takes the first hit, which
matches dict overwrite-on-assignment); the counter dict, preset with all
three types at `0`, is a total function. -/
structure MState where
  keyToId : List ((NodeType × String) × String)
  uniqueNodes : List Node
  idMapping : List ((Nat × String) × String)
  counters : NodeType → Nat

/-- Embeds one iteration of the first pass of `merge_graphs`
(`src/graph_merger.py` lines 78-101); `p.1` is `chunk_idx`, `p.2` the node. -/
def pass1Step (st : MState) (p : Nat × Node) : MState :=
  match st.keyToId.lookup (nodeKey p.2) with
  | some existingId =>
    { st with idMapping := ((p.1, p.2.id), existingId) :: st.idMapping }
  | none =>
    let c := st.counters p.2.type + 1
    let newId := mkId p.2.type c
    { keyToId := ((nodeKey p.2), newId) :: st.keyToId,
      uniqueNodes := st.uniqueNodes ++ [{ id := newId, type := p.2.type, name := p.2.name }],
      idMapping := ((p.1, p.2.id), newId) :: st.idMapping,
      counters := fun t => if t = p.2.type then c else st.counters t }

/-- Nodes of all input graphs tagged with their chunk index, in the order the
nested `for chunk_idx, graph in enumerate(graphs): for node in graph.nodes`
loops visit them. -/
def indexedNodes (graphs : List KnowledgeGraph) : List (Nat × Node) :=
  graphs.enum.flatMap (fun p => p.2.nodes.map (fun n => (p.1, n)))

def pass1State (graphs : List KnowledgeGraph) : MState :=
  (indexedNodes graphs).foldl pass1Step ⟨[], [], [], fun _ => 0⟩

/-- Embeds `id_mapping.get((chunk_idx, rel.source), rel.source)`: unresolved
ids fall through unchanged. -/
def resolveId (m : List ((Nat × String) × String)) (i : Nat) (s : String) : String :=
  (m.lookup (i, s)).getD s

def resolveRel (m : List ((Nat × String) × String)) (i : Nat) (r : Relationship) :
    Relationship :=
  { source := resolveId m i r.source, target := resolveId m i r.target,
    relation := r.relation, confidence := r.confidence }

/-- Dedup key of a relationship: `(new_source, new_target, rel.relation)`. -/
def relKey (r : Relationship) : String × String × Relation :=
  (r.source, r.target, r.relation)

/-- Embeds one iteration of the second pass of `merge_graphs`
(`src/graph_merger.py` lines 107-124): resolve endpoints, skip a triple
already in `seen_relationships`, otherwise emit. -/
def pass2Step (m : List ((Nat × String) × String))
    (acc : List (String × String × Relation) × List Relationship)
    (p : Nat × Relationship) :
    List (String × String × Relation) × List Relationship :=
  let r := resolveRel m p.1 p.2
  if relKey r ∈ acc.1 then acc else (relKey r :: acc.1, acc.2 ++ [r])

/-- Relationships of all input graphs tagged with their chunk index, in
visit order of the second pass. -/
def indexedRels (graphs : List KnowledgeGraph) : List (Nat × Relationship) :=
  graphs.enum.flatMap (fun p => p.2.relationships.map (fun r => (p.1, r)))

/-- Embeds `merge_graphs` (`src/graph_merger.py`).  `none` plays the role of
the `ValueError` raised on an empty input list. -/
def merge_graphs (graphs : List KnowledgeGraph) : Option KnowledgeGraph :=
  match graphs with
  | [] => none
  | [g] => some g
  | g₀ :: g₁ :: rest =>
    let st := pass1State (g₀ :: g₁ :: rest)
    let pr := (indexedRels (g₀ :: g₁ :: rest)).foldl (pass2Step st.idMapping) ([], [])
    some { schema_version := g₀.schema_version, nodes := st.uniqueNodes,
           relationships := pr.2 }

/-! ### Specification-side notions for the merger -/

/-- Keeps the first occurrence of every `f`-key of a list, in order of first
appearance; later elements whose key was already seen are dropped.  This is
the specification rendering of "one node per distinct `(type, name)` pair, in
order of first appearance" and of "first-encounter order of unique triples". -/
def firstDedupBy {α κ : Type} [DecidableEq κ] (f : α → κ) : List α → List α
  | [] => []
  | a :: l => a :: (firstDedupBy f l).filter (fun b => decide (f b ≠ f a))

theorem mem_map_firstDedupBy {α κ : Type} [DecidableEq κ] (f : α → κ) (l : List α) (k : κ) :
    k ∈ (firstDedupBy f l).map f ↔ k ∈ l.map f := by
  induction l with
  | nil => simp [firstDedupBy]
  | cons a l ih =>
    simp only [firstDedupBy, List.map_cons, List.mem_cons]
    constructor
    · rintro (h | h)
      · exact Or.inl h
      · obtain ⟨b, hb, hbk⟩ := List.mem_map.mp h
        exact Or.inr (ih.mp (List.mem_map.mpr ⟨b, (List.mem_filter.mp hb).1, hbk⟩))
    · rintro (h | h)
      · exact Or.inl h
      · by_cases hk : k = f a
        · exact Or.inl hk
        · obtain ⟨b, hb, hbk⟩ := List.mem_map.mp (ih.mpr h)
          refine Or.inr (List.mem_map.mpr ⟨b, List.mem_filter.mpr ⟨hb, ?_⟩, hbk⟩)
          subst hbk; simpa using hk
  
theorem nodup_map_firstDedupBy {α κ : Type} [DecidableEq κ] (f : α → κ) (l : List α) :
    ((firstDedupBy f l).map f).Nodup := by
  induction l with
  | nil => simp [firstDedupBy]
  | cons a l ih =>
    simp only [firstDedupBy, List.map_cons, List.nodup_cons]
    constructor
    · intro h
      obtain ⟨b, hb, hbk⟩ := List.mem_map.mp h
      have := (List.mem_filter.mp hb).2
      simp [hbk] at this
    · exact ih.sublist (List.Sublist.map f (List.filter_sublist _))

/-- The `(type, name)` pairs of all nodes of the inputs, walking input graphs
left to right and nodes top to bottom. -/
def allNodeKeys (graphs : List KnowledgeGraph) : List (NodeType × String) :=
  (graphs.flatMap (fun g => g.nodes)).map nodeKey

/-- The relationships of all inputs, in visit order, with endpoints resolved
through the pass-1 `(chunk, original id) -> canonical id` mapping. -/
def mergedRelInputs (graphs : List KnowledgeGraph) : List Relationship :=
  (indexedRels graphs).map (fun p => resolveRel (pass1State graphs).idMapping p.1 p.2)

theorem enumFrom_flatMap_snd {α β : Type} (f : α → List β) :
    ∀ (l : List α) (k : Nat), (l.enumFrom k).flatMap (fun p => f p.2) = l.flatMap f := by
  intro l
  induction l with
  | nil => intro k; rfl
  | cons a l ih => intro k; simp [List.enumFrom, List.flatMap_cons, ih]

theorem indexedNodes_keys (graphs : List KnowledgeGraph) :
    (indexedNodes graphs).map (fun p => nodeKey p.2) = allNodeKeys graphs := by
  simp only [indexedNodes, allNodeKeys, List.enum, List.map_flatMap, List.map_map]
  rw [← enumFrom_flatMap_snd (fun g => g.nodes.map nodeKey) graphs 0]
  rfl

/-! ### Pass-1 bridge lemmas -/

theorem pass1_foldl_nodes : ∀ (todo : List (Nat × Node)) (st : MState),
    ((todo.foldl pass1Step st).uniqueNodes).map nodeKey =
      st.uniqueNodes.map nodeKey ++
        (firstDedupBy (fun k => k) (todo.map (fun p => nodeKey p.2))).filter
          (fun k => decide (st.keyToId.lookup k = none)) := by
  intro todo
  induction todo with
  | nil => intro st; simp [firstDedupBy]
  | cons p rest ih =>
    intro st
    simp only [List.foldl_cons, List.map_cons, firstDedupBy]
    cases hl : st.keyToId.lookup (nodeKey p.2) with
    | some v =>
      rw [show pass1Step st p = { st with idMapping := ((p.1, p.2.id), v) :: st.idMapping } by
        simp [pass1Step, hl]]
      rw [ih]
      show _ = _ ++ List.filter _ (_ :: _)
      rw [List.filter_cons, if_neg (by simp [hl]), List.filter_filter]
      congr 1
      refine List.filter_congr ?_
      intro k _
      cases hk : st.keyToId.lookup k with
      | some w => simp [hk]
      | none =>
        have hne : k ≠ nodeKey p.2 := fun he => by rw [he, hl] at hk; cases hk
        simp [hk, hne]
    | none =>
      have hstep : pass1Step st p =
          { keyToId := ((nodeKey p.2), mkId p.2.type (st.counters p.2.type + 1)) :: st.keyToId,
            uniqueNodes := st.uniqueNodes ++
              [{ id := mkId p.2.type (st.counters p.2.type + 1), type := p.2.type, name := p.2.name }],
            idMapping := ((p.1, p.2.id), mkId p.2.type (st.counters p.2.type + 1)) :: st.idMapping,
            counters := fun t => if t = p.2.type then st.counters p.2.type + 1 else st.counters t } := by
        simp [pass1Step, hl]
      rw [hstep, ih]
      show _ = _ ++ List.filter _ (_ :: _)
      rw [List.filter_cons, if_pos (by simp [hl]), List.filter_filter]
      simp only [List.map_append, List.map_cons, List.map_nil, List.append_assoc,
        List.singleton_append]
      congr 2
      refine List.filter_congr ?_
      intro k _
      rw [List.lookup_cons]
      by_cases hk : k = nodeKey p.2
      · subst hk
        simp
      · simp only [show (k == nodeKey p.2) = false by simpa using hk]
        simp [hk]

/-! ### Injectivity of generated canonical ids -/

def typeHeadChar : NodeType → Char
  | NodeType.Company => 'c'
  | NodeType.RiskFactor => 'r'
  | NodeType.DollarAmount => 'a'

theorem mkId_head (t : NodeType) (c : Nat) :
    (mkId t c).data.head? = some (typeHeadChar t) := by
  cases t <;> rfl

theorem mkId_type_inj {t₁ t₂ : NodeType} {c₁ c₂ : Nat} (h : mkId t₁ c₁ = mkId t₂ c₂) :
    t₁ = t₂ := by
  have hh := congrArg (fun s : String => s.data.head?) h
  simp only [mkId_head, Option.some.injEq] at hh
  cases t₁ <;> cases t₂ <;> first | rfl | exact absurd hh (by decide)

theorem mkId_cancel {t : NodeType} {c₁ c₂ : Nat} (h : mkId t c₁ = mkId t c₂) :
    natStr c₁ = natStr c₂ := by
  have hd := congrArg String.data h
  cases t
  case Company =>
    have h1 : ∀ s : String, ("company" ++ "_" ++ s).data =
        'c' :: 'o' :: 'm' :: 'p' :: 'a' :: 'n' :: 'y' :: '_' :: s.data := fun _ => rfl
    simp only [mkId, type_head] at hd
    rw [h1, h1] at hd
    simp only [List.cons.injEq, true_and] at hd
    exact String.ext hd
  case RiskFactor =>
    have h1 : ∀ s : String, ("risk" ++ "_" ++ s).data =
        'r' :: 'i' :: 's' :: 'k' :: '_' :: s.data := fun _ => rfl
    simp only [mkId, type_head] at hd
    rw [h1, h1] at hd
    simp only [List.cons.injEq, true_and] at hd
    exact String.ext hd
  case DollarAmount =>
    have h1 : ∀ s : String, ("amount" ++ "_" ++ s).data =
        'a' :: 'm' :: 'o' :: 'u' :: 'n' :: 't' :: '_' :: s.data := fun _ => rfl
    simp only [mkId, type_head] at hd
    rw [h1, h1] at hd
    simp only [List.cons.injEq, true_and] at hd
    exact String.ext hd

theorem mkId_inj {t₁ t₂ : NodeType} {c₁ c₂ : Nat} (h : mkId t₁ c₁ = mkId t₂ c₂) :
    t₁ = t₂ ∧ c₁ = c₂ := by
  have ht := mkId_type_inj h
  subst ht
  exact ⟨rfl, natStr_inj (mkId_cancel h)⟩

/-! ### Pass-1 id-shape and distinctness bridge -/

theorem pass1_foldl_ids : ∀ (todo : List (Nat × Node)) (st : MState),
    (∀ t, ((st.uniqueNodes.filter (fun n => decide (n.type = t))).map Node.id) =
      (List.range (st.counters t)).map (fun j => mkId t (j + 1))) →
    ((st.uniqueNodes.map Node.id).Nodup) →
    (∀ t, (((todo.foldl pass1Step st).uniqueNodes.filter
        (fun n => decide (n.type = t))).map Node.id) =
      (List.range ((todo.foldl pass1Step st).counters t)).map (fun j => mkId t (j + 1))) ∧
    (((todo.foldl pass1Step st).uniqueNodes.map Node.id).Nodup) := by
  intro todo
  induction todo with
  | nil => intro st h1 h2; exact ⟨h1, h2⟩
  | cons p rest ih =>
    intro st h1 h2
    simp only [List.foldl_cons]
    cases hl : st.keyToId.lookup (nodeKey p.2) with
    | some v =>
      rw [show pass1Step st p = { st with idMapping := ((p.1, p.2.id), v) :: st.idMapping } by
        simp [pass1Step, hl]]
      exact ih _ h1 h2
    | none =>
      have hstep : pass1Step st p =
          { keyToId := ((nodeKey p.2), mkId p.2.type (st.counters p.2.type + 1)) :: st.keyToId,
            uniqueNodes := st.uniqueNodes ++
              [{ id := mkId p.2.type (st.counters p.2.type + 1), type := p.2.type,
                 name := p.2.name }],
            idMapping := ((p.1, p.2.id), mkId p.2.type (st.counters p.2.type + 1)) :: st.idMapping,
            counters := fun t => if t = p.2.type then st.counters p.2.type + 1
              else st.counters t } := by
        simp [pass1Step, hl]
      rw [hstep]
      refine ih _ ?_ ?_
      · intro t
        simp only [List.filter_append, List.map_append]
        by_cases ht : t = p.2.type
        · subst ht
          simp only [List.filter_cons, List.filter_nil, decide_eq_true_eq, if_pos rfl,
            List.map_cons, List.map_nil]
          rw [h1]
          simp only [if_true]
          rw [List.range_succ, List.map_append]
          rfl
        · have : ¬ (p.2.type = t) := fun he => ht he.symm
          simp only [List.filter_cons, List.filter_nil, decide_eq_true_eq, if_neg this,
            List.map_nil, List.append_nil]
          rw [h1, if_neg ht]
      · simp only [List.map_append, List.map_cons, List.map_nil]
        rw [List.nodup_append]
        refine ⟨h2, List.nodup_singleton _, ?_⟩
        intro x hx hx2
        simp only [List.mem_singleton] at hx2
        subst hx2
        obtain ⟨n, hn, hnid⟩ := List.mem_map.mp hx
        have hnf : n ∈ st.uniqueNodes.filter (fun m => decide (m.type = n.type)) :=
          List.mem_filter.mpr ⟨hn, by simp⟩
        have hnmem : n.id ∈ (st.uniqueNodes.filter
            (fun m => decide (m.type = n.type))).map Node.id :=
          List.mem_map.mpr ⟨n, hnf, rfl⟩
        rw [h1] at hnmem
        obtain ⟨j, hj, hjid⟩ := List.mem_map.mp hnmem
        rw [List.mem_range] at hj
        rw [hnid] at hjid
        obtain ⟨hty, hc⟩ := mkId_inj hjid
        rw [hty] at hj
        omega

/-! ### Pass-2 bridge -/

theorem pass2_foldl (m : List ((Nat × String) × String)) :
    ∀ (todo : List (Nat × Relationship)) (seen : List (String × String × Relation))
      (out : List Relationship),
    (todo.foldl (pass2Step m) (seen, out)).2 =
      out ++ (firstDedupBy relKey (todo.map (fun p => resolveRel m p.1 p.2))).filter
        (fun r => decide (relKey r ∉ seen)) := by
  intro todo
  induction todo with
  | nil => intro seen out; simp [firstDedupBy]
  | cons p rest ih =>
    intro seen out
    simp only [List.foldl_cons, List.map_cons, firstDedupBy]
    by_cases hmem : relKey (resolveRel m p.1 p.2) ∈ seen
    · rw [show pass2Step m (seen, out) p = (seen, out) by simp [pass2Step, hmem]]
      rw [ih]
      congr 1
      rw [List.filter_cons, if_neg (by simpa using hmem), List.filter_filter]
      refine List.filter_congr ?_
      intro r _
      by_cases hr : relKey r ∈ seen
      · simp [hr]
      · have hne : relKey r ≠ relKey (resolveRel m p.1 p.2) := fun he => hr (he ▸ hmem)
        simp [hr, hne]
    · rw [show pass2Step m (seen, out) p =
          (relKey (resolveRel m p.1 p.2) :: seen, out ++ [resolveRel m p.1 p.2]) by
        simp [pass2Step, hmem]]
      rw [ih]
      rw [List.filter_cons, if_pos (by simpa using hmem), List.filter_filter]
      rw [List.append_assoc, List.singleton_append]
      congr 2
      refine List.filter_congr ?_
      intro r _
      by_cases h1 : relKey r = relKey (resolveRel m p.1 p.2)
      · simp [h1, List.mem_cons]
      · by_cases h2 : relKey r ∈ seen <;> simp [h1, h2, List.mem_cons]

/-! ### Merger theorems -/

theorem merge_graphs_two_plus (g₀ g₁ : KnowledgeGraph) (rest : List KnowledgeGraph) :
    merge_graphs (g₀ :: g₁ :: rest) = some
      { schema_version := g₀.schema_version,
        nodes := (pass1State (g₀ :: g₁ :: rest)).uniqueNodes,
        relationships := ((indexedRels (g₀ :: g₁ :: rest)).foldl
          (pass2Step (pass1State (g₀ :: g₁ :: rest)).idMapping) ([], [])).2 } := rfl

theorem pass1State_nodes (graphs : List KnowledgeGraph) :
    (pass1State graphs).uniqueNodes.map nodeKey =
      firstDedupBy (fun k => k) (allNodeKeys graphs) := by
  rw [pass1State, pass1_foldl_nodes]
  show List.map nodeKey [] ++ _ = _
  rw [List.map_nil, List.nil_append, indexedNodes_keys]
  refine List.filter_eq_self.mpr ?_
  intro k _
  simp [List.lookup]

theorem pass1State_ids (graphs : List KnowledgeGraph) :
    (∀ t, (((pass1State graphs).uniqueNodes.filter
        (fun n => decide (n.type = t))).map Node.id) =
      (List.range ((pass1State graphs).counters t)).map (fun j => mkId t (j + 1))) ∧
    (((pass1State graphs).uniqueNodes.map Node.id).Nodup) := by
  rw [pass1State]
  refine pass1_foldl_ids _ _ ?_ ?_
  · intro t
    show List.map Node.id (List.filter _ []) = List.map _ (List.range 0)
    simp
  · show (List.map Node.id []).Nodup
    simp

/-- C1: for two or more input graphs, `merge_graphs` emits exactly one node
per distinct `(type, name)` pair of the inputs, in order of first appearance
walking input graphs left to right and nodes top to bottom; each emitted node
of a type carries the canonical id built from that type's running counter
(`company_1, company_2, ...`, `risk_1, ...`, `amount_1, ...`), so output ids
are pairwise distinct, and the output `schema_version` is the first input's. -/
theorem merge_multi_node_spec (g₀ g₁ : KnowledgeGraph) (rest : List KnowledgeGraph) :
    ∃ out, merge_graphs (g₀ :: g₁ :: rest) = some out ∧
      out.schema_version = g₀.schema_version ∧
      out.nodes.map nodeKey = firstDedupBy (fun k => k) (allNodeKeys (g₀ :: g₁ :: rest)) ∧
      (out.nodes.map nodeKey).Nodup ∧
      (∀ k, k ∈ out.nodes.map nodeKey ↔ k ∈ allNodeKeys (g₀ :: g₁ :: rest)) ∧
      (∀ t, ((out.nodes.filter (fun n => decide (n.type = t))).map Node.id) =
        (List.range ((out.nodes.filter (fun n => decide (n.type = t))).length)).map
          (fun j => mkId t (j + 1))) ∧
      (out.nodes.map Node.id).Nodup := by
  refine ⟨_, merge_graphs_two_plus g₀ g₁ rest, rfl, ?_, ?_, ?_, ?_, ?_⟩
  · exact pass1State_nodes (g₀ :: g₁ :: rest)
  · show ((pass1State (g₀ :: g₁ :: rest)).uniqueNodes.map nodeKey).Nodup
    rw [pass1State_nodes (g₀ :: g₁ :: rest)]
    have h := nodup_map_firstDedupBy (fun k => k) (allNodeKeys (g₀ :: g₁ :: rest))
    rwa [List.map_id'] at h
  · intro k
    show k ∈ (pass1State (g₀ :: g₁ :: rest)).uniqueNodes.map nodeKey ↔ _
    rw [pass1State_nodes (g₀ :: g₁ :: rest)]
    have h := mem_map_firstDedupBy (fun x => x) (allNodeKeys (g₀ :: g₁ :: rest)) k
    rwa [List.map_id', List.map_id'] at h
  · intro t
    have hA := (pass1State_ids (g₀ :: g₁ :: rest)).1 t
    have hlen := congrArg List.length hA
    simp only [List.length_map, List.length_range] at hlen
    rw [hA, hlen]
  · exact (pass1State_ids (g₀ :: g₁ :: rest)).2

/-- C2: merging a one-element list returns the graph itself unchanged -- no
renumbering, no node or relationship dedup, no repair is applied on the
single-input fast path (`src/graph_merger.py` lines 54-55). -/
theorem merge_single_identity (g : KnowledgeGraph) : merge_graphs [g] = some g := rfl

/-- Example single graph whose relationship list repeats one triple; the
single-input fast path hands it through untouched. -/
def dupRelGraph : KnowledgeGraph :=
  { schema_version := "1.0.0",
    nodes := [{ id := "company_1", type := NodeType.Company, name := "Acme" }],
    relationships :=
      [{ source := "company_1", target := "company_1", relation := Relation.OWNS,
         confidence := none },
       { source := "company_1", target := "company_1", relation := Relation.OWNS,
         confidence := none }] }

/-- C3 counterexample: on a one-element input list the merger performs no
relationship dedup, so an input graph that already repeats a
`(source, target, relation)` triple yields an output with a repeated triple;
the claim's "for any non-empty list of input graphs" is refuted at this
single-graph input. -/
theorem merge_rel_dedup_cex :
    merge_graphs [dupRelGraph] = some dupRelGraph ∧
    ¬ ((dupRelGraph.relationships.map relKey).Nodup) := by
  constructor
  · rfl
  · decide

/-- C3 amended: for two or more input graphs, the output relationship list is
the first-encounter dedup of the endpoint-resolved input relationships, so no
two output relationships share a `(source, target, relation)` triple and the
output order is first-encounter order of the unique triples. -/
theorem merge_multi_rel_spec (g₀ g₁ : KnowledgeGraph) (rest : List KnowledgeGraph) :
    ∃ out, merge_graphs (g₀ :: g₁ :: rest) = some out ∧
      out.relationships = firstDedupBy relKey (mergedRelInputs (g₀ :: g₁ :: rest)) ∧
      (out.relationships.map relKey).Nodup := by
  have hrel : ((indexedRels (g₀ :: g₁ :: rest)).foldl
      (pass2Step (pass1State (g₀ :: g₁ :: rest)).idMapping) ([], [])).2 =
      firstDedupBy relKey (mergedRelInputs (g₀ :: g₁ :: rest)) := by
    rw [pass2_foldl, List.nil_append, mergedRelInputs]
    refine List.filter_eq_self.mpr ?_
    intro r _
    simp
  refine ⟨_, merge_graphs_two_plus g₀ g₁ rest, hrel, ?_⟩
  show ((((indexedRels (g₀ :: g₁ :: rest)).foldl
      (pass2Step (pass1State (g₀ :: g₁ :: rest)).idMapping) ([], [])).2).map relKey).Nodup
  rw [hrel]
  exact nodup_map_firstDedupBy _ _

/-- C4: the merger fails exactly on the empty input list (the `ValueError` of
`src/graph_merger.py` line 51, embedded as `none`), and a relationship
endpoint id absent from the pass-1 mapping is passed through to the output
unchanged by the `id_mapping.get((chunk_idx, id), id)` fallback. -/
theorem merge_fails_iff_empty (graphs : List KnowledgeGraph) :
    (merge_graphs graphs = none ↔ graphs = []) ∧
    (∀ m i s, List.lookup (i, s) m = none → resolveId m i s = s) := by
  constructor
  · cases graphs with
    | nil => simp [merge_graphs]
    | cons g rest =>
      cases rest with
      | nil => simp [merge_graphs]
      | cons g₁ rest₁ => simp [merge_graphs]
  · intro m i s h
    simp [resolveId, h]

theorem merge_fails_iff_empty_witness :
    List.lookup ((0 : Nat), "orphan") ([] : List ((Nat × String) × String)) = none ∧
    resolveId [] 0 "orphan" = "orphan" :=
  ⟨rfl, (merge_fails_iff_empty []).2 [] 0 "orphan" rfl⟩

theorem merge_graphs_of_ne_nil (graphs : List KnowledgeGraph) (h : graphs ≠ []) :
    ∃ g, merge_graphs graphs = some g := by
  cases graphs with
  | nil => exact absurd rfl h
  | cons g rest =>
    cases rest with
    | nil => exact ⟨g, rfl⟩
    | cons g₁ r => exact ⟨_, rfl⟩

/-! ### Validator (`src/validator.py`) -/

/-- Embeds the dict `node_map = {node.id: node for node in graph.nodes}`:
later nodes overwrite earlier ones, so a lookup returns the last node in list
order bearing the id. -/
def nodeById (nodes : List Node) (i : String) : Option Node :=
  nodes.reverse.find? (fun n => n.id == i)

/-- Embeds the per-relationship keep/remove decision of
`validate_and_repair_graph` (`src/validator.py` lines 64-92): drop when an
endpoint id is missing from the node map, or when the relation's type
constraint fails; the `is_valid = True` default applies otherwise. -/
def relKeepB (nodes : List Node) (r : Relationship) : Bool :=
  match nodeById nodes r.source, nodeById nodes r.target with
  | some ns, some nt =>
    match r.relation with
    | Relation.HAS_RISK => nt.type == NodeType.RiskFactor
    | Relation.REPORTS_AMOUNT => nt.type == NodeType.DollarAmount
    | Relation.OWNS => ns.type == NodeType.Company && nt.type == NodeType.Company
  | _, _ => false

/-- Embeds `validate_and_repair_graph` (`src/validator.py` lines 40-101).
`none` is the `ValueError` on an empty node list; the removed-count side
print is a side effect the embedding drops. -/
def validate_and_repair_graph (g : KnowledgeGraph) : Option KnowledgeGraph :=
  if g.nodes.isEmpty then none
  else some
    { schema_version := g.schema_version, nodes := g.nodes,
      relationships := g.relationships.foldl
        (fun acc r => if relKeepB g.nodes r then acc ++ [r] else acc) [] }

theorem foldl_append_filter {α : Type} (p : α → Bool) :
    ∀ (l acc : List α),
      l.foldl (fun a r => if p r then a ++ [r] else a) acc = acc ++ l.filter p := by
  intro l
  induction l with
  | nil => intro acc; simp
  | cons a l ih =>
    intro acc
    simp only [List.foldl_cons, List.filter_cons]
    cases hp : p a with
    | true =>
      rw [if_pos rfl, ih, List.append_assoc, List.singleton_append]
      rw [if_pos rfl]
    | false =>
      rw [if_neg (by simp), ih]
      rw [if_neg (by simp)]

/-- Specification-side keep predicate, Bool form: both endpoint ids occur
among the node ids, and the relation's type constraint holds of the nodes the
endpoint ids denote. -/
def relSpecB (g : KnowledgeGraph) (r : Relationship) : Bool :=
  g.nodes.any (fun n => n.id == r.source) && g.nodes.any (fun n => n.id == r.target) &&
  (match r.relation with
   | Relation.HAS_RISK =>
     (nodeById g.nodes r.target).all (fun nt => nt.type == NodeType.RiskFactor)
   | Relation.REPORTS_AMOUNT =>
     (nodeById g.nodes r.target).all (fun nt => nt.type == NodeType.DollarAmount)
   | Relation.OWNS =>
     (nodeById g.nodes r.source).all (fun ns => ns.type == NodeType.Company) &&
     (nodeById g.nodes r.target).all (fun nt => nt.type == NodeType.Company))

/-- Specification-side keep predicate, propositional form. -/
def relSpecOK (g : KnowledgeGraph) (r : Relationship) : Prop :=
  (∃ n ∈ g.nodes, n.id = r.source) ∧ (∃ n ∈ g.nodes, n.id = r.target) ∧
  (∀ ns nt, nodeById g.nodes r.source = some ns → nodeById g.nodes r.target = some nt →
    ((r.relation = Relation.HAS_RISK → nt.type = NodeType.RiskFactor) ∧
     (r.relation = Relation.REPORTS_AMOUNT → nt.type = NodeType.DollarAmount) ∧
     (r.relation = Relation.OWNS →
       ns.type = NodeType.Company ∧ nt.type = NodeType.Company)))

theorem nodeById_isSome_iff (nodes : List Node) (i : String) :
    (nodeById nodes i).isSome ↔ ∃ n ∈ nodes, n.id = i := by
  rw [nodeById, List.find?_isSome]
  constructor
  · rintro ⟨n, hn, hid⟩
    exact ⟨n, List.mem_reverse.mp hn, by simpa using hid⟩
  · rintro ⟨n, hn, hid⟩
    exact ⟨n, List.mem_reverse.mpr hn, by simpa using hid⟩

theorem any_id_iff (nodes : List Node) (i : String) :
    (nodes.any (fun n => n.id == i)) = true ↔ ∃ n ∈ nodes, n.id = i := by
  rw [List.any_eq_true]
  constructor
  · rintro ⟨n, hn, hid⟩; exact ⟨n, hn, by simpa using hid⟩
  · rintro ⟨n, hn, hid⟩; exact ⟨n, hn, by simpa using hid⟩

theorem relKeepB_eq_relSpecB (g : KnowledgeGraph) (r : Relationship) :
    relKeepB g.nodes r = relSpecB g r := by
  cases hs : nodeById g.nodes r.source with
  | none =>
    have : (g.nodes.any (fun n => n.id == r.source)) = false := by
      rw [Bool.eq_false_iff]
      intro hc
      obtain ⟨n, hn, hid⟩ := (any_id_iff _ _).mp hc
      have := (nodeById_isSome_iff g.nodes r.source).mpr ⟨n, hn, hid⟩
      rw [hs] at this
      cases this
    simp [relKeepB, relSpecB, hs, this]
  | some ns =>
    cases ht : nodeById g.nodes r.target with
    | none =>
      have : (g.nodes.any (fun n => n.id == r.target)) = false := by
        rw [Bool.eq_false_iff]
        intro hc
        obtain ⟨n, hn, hid⟩ := (any_id_iff _ _).mp hc
        have := (nodeById_isSome_iff g.nodes r.target).mpr ⟨n, hn, hid⟩
        rw [ht] at this
        cases this
      simp [relKeepB, relSpecB, hs, ht, this]
    | some nt =>
      have hs1 : (g.nodes.any (fun n => n.id == r.source)) = true := by
        rw [any_id_iff]
        exact (nodeById_isSome_iff g.nodes r.source).mp (by rw [hs]; rfl)
      have ht1 : (g.nodes.any (fun n => n.id == r.target)) = true := by
        rw [any_id_iff]
        exact (nodeById_isSome_iff g.nodes r.target).mp (by rw [ht]; rfl)
      cases r.relation <;> simp [relKeepB, relSpecB, hs, ht, hs1, ht1, Option.all]

theorem relSpecB_iff (g : KnowledgeGraph) (r : Relationship) :
    relSpecB g r = true ↔ relSpecOK g r := by
  cases hs : nodeById g.nodes r.source with
  | none =>
    have hex : ¬ ∃ n ∈ g.nodes, n.id = r.source := by
      intro hc
      have hsome := (nodeById_isSome_iff g.nodes r.source).mpr hc
      rw [hs] at hsome
      cases hsome
    constructor
    · intro hb
      exfalso
      simp only [relSpecB, Bool.and_eq_true] at hb
      exact hex ((any_id_iff _ _).mp hb.1.1)
    · intro hok
      exact absurd hok.1 hex
  | some ns =>
    have hsx : ∃ n ∈ g.nodes, n.id = r.source :=
      (nodeById_isSome_iff g.nodes r.source).mp (by rw [hs]; rfl)
    have hs1 : (g.nodes.any (fun n => n.id == r.source)) = true := (any_id_iff _ _).mpr hsx
    cases ht : nodeById g.nodes r.target with
    | none =>
      have hex : ¬ ∃ n ∈ g.nodes, n.id = r.target := by
        intro hc
        have hsome := (nodeById_isSome_iff g.nodes r.target).mpr hc
        rw [ht] at hsome
        cases hsome
      constructor
      · intro hb
        exfalso
        simp only [relSpecB, Bool.and_eq_true] at hb
        exact hex ((any_id_iff _ _).mp hb.1.2)
      · intro hok
        exact absurd hok.2.1 hex
    | some nt =>
      have htx : ∃ n ∈ g.nodes, n.id = r.target :=
        (nodeById_isSome_iff g.nodes r.target).mp (by rw [ht]; rfl)
      have ht1 : (g.nodes.any (fun n => n.id == r.target)) = true := (any_id_iff _ _).mpr htx
      constructor
      · intro hb
        refine ⟨hsx, htx, ?_⟩
        intro ns' nt' hns hnt
        rw [hs] at hns
        rw [ht] at hnt
        cases hns
        cases hnt
        simp only [relSpecB, hs, ht, hs1, ht1, Bool.true_and, Bool.and_eq_true] at hb
        cases hrel : r.relation
        · rw [hrel] at hb
          simp only [Option.all, Bool.and_eq_true, beq_iff_eq] at hb
          simp [hrel, hb.1, hb.2]
        · rw [hrel] at hb
          simp only [Option.all, beq_iff_eq] at hb
          simp [hrel, hb]
        · rw [hrel] at hb
          simp only [Option.all, beq_iff_eq] at hb
          simp [hrel, hb]
      · rintro ⟨_, _, hcon⟩
        have hP := hcon ns nt hs ht
        simp only [relSpecB, hs, ht, hs1, ht1, Bool.true_and]
        cases hrel : r.relation
        · obtain ⟨h1, h2⟩ := hP.2.2 hrel
          simp [Option.all, h1, h2]
        · have h1 := hP.1 hrel
          simp [Option.all, h1]
        · have h1 := hP.2.1 hrel
          simp [Option.all, h1]

/-- C6: repair fails exactly on an empty node list; otherwise it returns a new
graph with the same nodes and schema_version whose relationship list keeps, in
input order, exactly the relationships whose source and target ids exist in
the node list and which satisfy the type constraints (HAS_RISK target is a
RiskFactor, REPORTS_AMOUNT target is a DollarAmount, OWNS has both endpoints
Company; the schema admits no further relation kinds, so nothing else is
constrained). -/
theorem repair_spec (g : KnowledgeGraph) :
    (g.nodes = [] → validate_and_repair_graph g = none) ∧
    (g.nodes ≠ [] → ∃ g', validate_and_repair_graph g = some g' ∧
      g'.nodes = g.nodes ∧ g'.schema_version = g.schema_version ∧
      g'.relationships = g.relationships.filter (fun r => relSpecB g r) ∧
      (∀ r, r ∈ g'.relationships ↔ (r ∈ g.relationships ∧ relSpecOK g r))) := by
  constructor
  · intro h
    simp [validate_and_repair_graph, h]
  · intro h
    have hne : ¬ (g.nodes.isEmpty = true) := by
      cases hn : g.nodes with
      | nil => exact absurd hn h
      | cons a l => simp [hn]
    refine ⟨{ schema_version := g.schema_version, nodes := g.nodes,
              relationships := g.relationships.foldl
                (fun acc r => if relKeepB g.nodes r then acc ++ [r] else acc) [] },
            ?_, rfl, rfl, ?_, ?_⟩
    · simp only [validate_and_repair_graph, if_neg hne]
    · show g.relationships.foldl _ [] = _
      rw [foldl_append_filter, List.nil_append]
      exact List.filter_congr (fun r _ => relKeepB_eq_relSpecB g r)
    · intro r
      show r ∈ g.relationships.foldl _ [] ↔ _
      rw [foldl_append_filter, List.nil_append, List.mem_filter]
      rw [relKeepB_eq_relSpecB]
      exact and_congr_right (fun _ => relSpecB_iff g r)

/-- Repair test graph: one type-valid HAS_RISK (Company to RiskFactor) and
one type-invalid HAS_RISK (Company to Company). -/
def repairWitnessG : KnowledgeGraph :=
  { schema_version := "1.0.0",
    nodes := [{ id := "c1", type := NodeType.Company, name := "Acme" },
              { id := "r1", type := NodeType.RiskFactor, name := "litigation" },
              { id := "c2", type := NodeType.Company, name := "Beta" }],
    relationships :=
      [{ source := "c1", target := "r1", relation := Relation.HAS_RISK, confidence := none },
       { source := "c1", target := "c2", relation := Relation.HAS_RISK, confidence := none }] }

theorem repair_spec_witness :
    repairWitnessG.nodes ≠ [] ∧
    (∃ g', validate_and_repair_graph repairWitnessG = some g' ∧
      g'.nodes = repairWitnessG.nodes ∧
      g'.schema_version = repairWitnessG.schema_version ∧
      g'.relationships = repairWitnessG.relationships.filter
        (fun r => relSpecB repairWitnessG r) ∧
      (∀ r, r ∈ g'.relationships ↔
        (r ∈ repairWitnessG.relationships ∧ relSpecOK repairWitnessG r))) :=
  ⟨by decide, (repair_spec repairWitnessG).2 (by decide)⟩

/-- C10: repair is idempotent -- a second repair pass removes nothing, since
every surviving relationship already references existing node ids and
satisfies the type constraints over the unchanged node list. -/
theorem repair_idempotent (g g' : KnowledgeGraph)
    (h : validate_and_repair_graph g = some g') :
    validate_and_repair_graph g' = some g' := by
  by_cases hne : g.nodes.isEmpty = true
  · simp only [validate_and_repair_graph, if_pos hne] at h
    cases h
  · simp only [validate_and_repair_graph, if_neg hne] at h
    have hg := Option.some.inj h
    subst hg
    simp only [validate_and_repair_graph, if_neg hne]
    refine congrArg some ?_
    congr 1
    rw [foldl_append_filter, foldl_append_filter, List.nil_append, List.nil_append,
      List.filter_filter]
    refine List.filter_congr ?_
    intro a _
    cases relKeepB g.nodes a <;> simp

/-- Repaired form of `repairWitnessG`: only the type-valid relationship
survives. -/
def repairIdemG : KnowledgeGraph :=
  { schema_version := "1.0.0",
    nodes := [{ id := "c1", type := NodeType.Company, name := "Acme" },
              { id := "r1", type := NodeType.RiskFactor, name := "litigation" },
              { id := "c2", type := NodeType.Company, name := "Beta" }],
    relationships :=
      [{ source := "c1", target := "r1", relation := Relation.HAS_RISK,
         confidence := none }] }

theorem repair_idempotent_witness :
    validate_and_repair_graph repairWitnessG = some repairIdemG ∧
    validate_and_repair_graph repairIdemG = some repairIdemG :=
  ⟨by decide, repair_idempotent repairWitnessG repairIdemG (by decide)⟩

/-! ### Chunked-extraction orchestrator (`src/extractor/__init__.py`)

The orchestration loop of `extract_knowledge_graph` (lines 85-129) calls the
external extractor once per chunk; a call either returns a graph or raises.
The loop is embedded as a function of the per-chunk outcomes: `Except.ok g`
for a chunk whose `extractor.extract` returned `g`, `Except.error e` for a
chunk whose call raised `e`.  Successes are accumulated in order, failures
are recorded and skipped, and after the loop the accumulated graphs are
merged, or an aggregate error naming the total chunk count is raised when no
chunk succeeded. -/

/-- Embeds the aggregate f-string of lines 123-126. -/
def allFailedMsg (n : Nat) : String :=
  "All " ++ natStr n ++
    " chunks failed to extract. Check LLM connection and prompt compatibility."

def extract_from_chunks (results : List (Except String KnowledgeGraph)) :
    Except String KnowledgeGraph :=
  let graphs := results.filterMap (fun r => r.toOption)
  if graphs.isEmpty then Except.error (allFailedMsg results.length)
  else
    match merge_graphs graphs with
    | some g => Except.ok g
    | none => Except.error (allFailedMsg results.length)

/-- C5: a failing chunk is skipped without aborting; when at least one chunk
succeeds the orchestrator returns (without raising) the merge of exactly the
successful chunk graphs in original chunk order, and when zero chunks succeed
it raises an aggregate error naming the total chunk count. -/
theorem orchestrator_spec (results : List (Except String KnowledgeGraph)) :
    (results.filterMap Except.toOption = [] →
      extract_from_chunks results = Except.error (allFailedMsg results.length)) ∧
    (results.filterMap Except.toOption ≠ [] →
      ∃ g, merge_graphs (results.filterMap Except.toOption) = some g ∧
        extract_from_chunks results = Except.ok g) := by
  constructor
  · intro h
    simp [extract_from_chunks, h]
  · intro h
    obtain ⟨g, hg⟩ := merge_graphs_of_ne_nil _ h
    refine ⟨g, hg, ?_⟩
    have hne : ¬ ((results.filterMap (fun r => Except.toOption r)).isEmpty = true) := by
      cases hn : results.filterMap (fun r => Except.toOption r) with
      | nil => exact absurd hn h
      | cons a l => simp [hn]
    simp only [extract_from_chunks, if_neg hne]
    rw [show results.filterMap (fun r => Except.toOption r) =
      results.filterMap Except.toOption from rfl, hg]

/-- Per-chunk outcomes of the spec's partial-failure scenario: chunk 2 raises,
chunks 1 and 3 succeed with one node each. -/
def chunkResultsW : List (Except String KnowledgeGraph) :=
  [Except.ok { schema_version := "1.0.0",
               nodes := [{ id := "company_1", type := NodeType.Company, name := "Acme" }],
               relationships := [] },
   Except.error "connection refused",
   Except.ok { schema_version := "1.0.0",
               nodes := [{ id := "company_1", type := NodeType.Company, name := "Beta" }],
               relationships := [] }]

theorem orchestrator_spec_witness :
    chunkResultsW.filterMap Except.toOption ≠ [] ∧
    (∃ g, merge_graphs (chunkResultsW.filterMap Except.toOption) = some g ∧
      extract_from_chunks chunkResultsW = Except.ok g) :=
  ⟨by decide, (orchestrator_spec chunkResultsW).2 (by decide)⟩

/-! ### Chunker (`src/chunker.py`)

Positions and slices work on the character list of the text (Python strings
index by code point).  `re` patterns are embedded as explicit scanners:

* `r'\n\n+'` with `finditer` yields, left to right, the maximal runs of
  newlines of length at least two (the greedy `\n+` always consumes a run to
  its end, and a run of length one has no match);
* `r'[.!?]\s+'` yields one match per position `i` holding `.`, `!` or `?`
  whose next character is whitespace, extending through the maximal
  whitespace run; non-overlapping scanning drops no such start, because the
  consumed span past its start holds only whitespace, which can start no
  match;
* `r'\s+'` yields the maximal whitespace runs.

Python `\s` is modelled over its ASCII range (the texts the pipeline chunks);
`str.strip` / `str.rstrip` are embedded over the same class. -/

def isSpaceChar (c : Char) : Bool :=
  c == ' ' || c == '\t' || c == '\n' || c == '\r' || c == '\x0b' || c == '\x0c'

def isNlChar (c : Char) : Bool := c == '\n'

def isSentPunct (c : Char) : Bool := c == '.' || c == '!' || c == '?'

def pyStrip (l : List Char) : List Char :=
  ((l.dropWhile isSpaceChar).reverse.dropWhile isSpaceChar).reverse

def pyRstrip (l : List Char) : List Char :=
  (l.reverse.dropWhile isSpaceChar).reverse

/-- Embeds `estimate_tokens`: `len(text) // 4`. -/
def estimate_tokens (s : String) : Nat := s.length / 4

/-- End of the maximal `p`-run beginning at position `i`. -/
def runEnd (p : Char → Bool) (l : List Char) (i : Nat) : Nat :=
  i + ((l.drop i).takeWhile p).length

/-- Positions where a maximal `p`-run begins. -/
def runStartsF (p : Char → Bool) (l : List Char) : List Nat :=
  (List.range l.length).filter
    (fun i => p (l.getD i ' ') && (decide (i = 0) || ! p (l.getD (i - 1) ' ')))

/-- Matches of `re.finditer(r'\n\n+', text)` as `(start, end)` pairs. -/
def pyParaMatches (l : List Char) : List (Nat × Nat) :=
  (runStartsF isNlChar l).filterMap
    (fun i => if i + 2 ≤ runEnd isNlChar l i then some (i, runEnd isNlChar l i) else none)

/-- Matches of `re.finditer(r'\s+', text)` as `(start, end)` pairs. -/
def pyWsMatches (l : List Char) : List (Nat × Nat) :=
  (runStartsF isSpaceChar l).map (fun i => (i, runEnd isSpaceChar l i))

/-- Start positions of `re.finditer(r'[.!?]\s+', text)` matches. -/
def pySentStarts (l : List Char) : List Nat :=
  (List.range l.length).filter
    (fun i => isSentPunct (l.getD i ' ') && decide (i + 1 < l.length) &&
      isSpaceChar (l.getD (i + 1) ' '))

/-- Matches of `re.finditer(r'[.!?]\s+', text)` as `(start, end)` pairs. -/
def pySentMatches (l : List Char) : List (Nat × Nat) :=
  (pySentStarts l).map (fun i => (i, runEnd isSpaceChar l (i + 1)))

/-- Embeds `_split_at_boundary` (`src/chunker.py` lines 103-139): cut at the
last paragraph break; else at the second-to-last sentence break when at least
two exist, the last otherwise; else, when more than ten whitespace runs
exist, at run number `int(len(word_matches) * 0.8)`; else return the text
untrimmed.  `int(n * 0.8)` equals `4 * n / 5` in exact arithmetic: the float
`0.8` exceeds `4/5` by under `2 ^ -53`, so for any list length `n` the
product `n * 0.8` lies in `[4n/5, 4n/5 + n * 2 ^ -50]`, and truncation agrees
with the integer division (when `5 divides 4n` the product rounds to the
exact integer or barely above it, never below). -/
def split_at_boundary (l : List Char) : List Char :=
  match (pyParaMatches l).getLast? with
  | some m => pyRstrip (l.take m.2)
  | none =>
    let sm := pySentMatches l
    if sm.isEmpty then
      let wm := pyWsMatches l
      if 10 < wm.length then pyRstrip (l.take ((wm.getD (wm.length * 4 / 5) (0, 0)).2))
      else l
    else
      pyRstrip (l.take ((sm.getD (if 2 ≤ sm.length then sm.length - 2 else sm.length - 1)
        (0, 0)).2))

/-- Embeds `str.find`: the least index where `pat` occurs in `hay`, `-1` when
absent (`0` for the empty pattern). -/
def pyFind (hay pat : List Char) : Int :=
  match (List.range (hay.length + 1)).find? (fun i => pat.isPrefixOf (hay.drop i)) with
  | some i => (i : Int)
  | none => -1

/-- Embeds the cursor update of `split_text` (`src/chunker.py` lines 92-96),
taken when the window does not reach the end of the text:
`current_pos = end_pos - overlap_chars`, replaced by `end_pos` when
`current_pos <= chunks[-1].find(chunk[:100])`. -/
def nextCursor (chunkChars overlapChars : Nat) (l : List Char) (pos : Nat) : Nat :=
  let endPos := min (pos + chunkChars) l.length
  let chunk := split_at_boundary ((l.drop pos).take (endPos - pos))
  let next0 : Int := (endPos : Int) - (overlapChars : Int)
  if next0 ≤ pyFind (pyStrip chunk) (chunk.take 100) then endPos else next0.toNat

/-- Embeds the `while current_pos < len(text)` loop of `split_text`
(`src/chunker.py` lines 77-98) as a fuel-indexed step function; `none` marks
fuel exhaustion, which `chunk_loop_spec` shows cannot occur with fuel
exceeding the text length. -/
def splitLoopF (chunkChars overlapChars : Nat) (l : List Char) :
    Nat → Nat → List (List Char) → Option (List (List Char))
  | 0, _, _ => none
  | fuel + 1, pos, acc =>
    if pos < l.length then
      let endPos := min (pos + chunkChars) l.length
      let chunk0 := (l.drop pos).take (endPos - pos)
      if endPos < l.length then
        splitLoopF chunkChars overlapChars l fuel (nextCursor chunkChars overlapChars l pos)
          (acc ++ [pyStrip (split_at_boundary chunk0)])
      else
        some (acc ++ [pyStrip chunk0])
    else some acc

/-- Embeds `split_text` (`src/chunker.py` lines 30-100).  The three
`ValueError`s become `Except.error` with the source's messages. -/
def split_text (text : String) (chunk_size overlap : Int) : Except String (List String) :=
  if chunk_size ≤ 0 then Except.error "chunk_size must be positive"
  else if overlap < 0 then Except.error "overlap must be non-negative"
  else if chunk_size ≤ overlap then Except.error "overlap must be less than chunk_size"
  else if pyStrip text.data = [] then Except.ok []
  else if (estimate_tokens text : Int) ≤ chunk_size then Except.ok [text]
  else
    match splitLoopF (chunk_size.toNat * 4) (overlap.toNat * 4) text.data
        (text.data.length + 1) 0 [] with
    | some chunks => Except.ok (chunks.map (fun c => String.mk c))
    | none => Except.error "unreachable"

/-- C7 counterexample: a whitespace-only text has estimated token count `0`,
at most any positive `chunk_size`, yet `split_text` returns the empty
sequence (the `if not text.strip(): return []` guard fires first), not the
one-element sequence `[text]` the claim requires. -/
theorem split_fits_single_cex :
    split_text " " 10 2 = Except.ok [] ∧
    (estimate_tokens " " : Int) ≤ 10 ∧
    (Except.ok ([] : List String) : Except String (List String)) ≠ Except.ok [" "] := by
  refine ⟨rfl, by decide, by simp⟩

/-- C7 amended: for valid parameters and a text with any non-whitespace
content, a text whose estimated token count is at most `chunk_size` is
returned as the one-element sequence `[text]` unmodified (an empty or
whitespace-only text instead yields the empty sequence). -/
theorem split_fits_single (text : String) (chunk_size overlap : Int)
    (hcs : 0 < chunk_size) (hov : 0 ≤ overlap) (hoc : overlap < chunk_size)
    (hstrip : pyStrip text.data ≠ [])
    (hfit : (estimate_tokens text : Int) ≤ chunk_size) :
    split_text text chunk_size overlap = Except.ok [text] := by
  rw [split_text, if_neg (by omega), if_neg (by omega), if_neg (by omega), if_neg hstrip,
    if_pos hfit]

theorem split_fits_single_witness :
    (0 : Int) < 10 ∧ (0 : Int) ≤ 2 ∧ (2 : Int) < 10 ∧ pyStrip "hello".data ≠ [] ∧
    (estimate_tokens "hello" : Int) ≤ 10 ∧
    split_text "hello" 10 2 = Except.ok ["hello"] :=
  ⟨by decide, by decide, by decide, by decide, by decide,
    split_fits_single "hello" 10 2 (by decide) (by decide) (by decide) (by decide) (by decide)⟩

/-! ### Termination and determinism of the chunking loop -/

theorem nextCursor_advance {chunkChars overlapChars : Nat} {l : List Char} {pos : Nat}
    (hend : pos + chunkChars < l.length) (hoc : overlapChars < chunkChars) :
    pos < nextCursor chunkChars overlapChars l pos ∧
    (nextCursor chunkChars overlapChars l pos = pos + chunkChars - overlapChars ∨
      nextCursor chunkChars overlapChars l pos = pos + chunkChars) := by
  have hmin : min (pos + chunkChars) l.length = pos + chunkChars :=
    Nat.min_eq_left (Nat.le_of_lt hend)
  rw [nextCursor]
  simp only [hmin]
  split <;> omega

theorem splitLoopF_isSome {chunkChars overlapChars : Nat} {l : List Char}
    (hoc : overlapChars < chunkChars) :
    ∀ (fuel pos : Nat) (acc : List (List Char)), l.length - pos < fuel →
      (splitLoopF chunkChars overlapChars l fuel pos acc).isSome := by
  intro fuel
  induction fuel with
  | zero => intro pos acc h; omega
  | succ f ih =>
    intro pos acc h
    rw [splitLoopF]
    by_cases hp : pos < l.length
    · rw [if_pos hp]
      by_cases he : min (pos + chunkChars) l.length < l.length
      · rw [if_pos he]
        have hend : pos + chunkChars < l.length := by omega
        have hadv := (nextCursor_advance hend hoc).1
        exact ih _ _ (by omega)
      · rw [if_neg he]
        rfl
    · rw [if_neg hp]
      rfl

theorem splitLoopF_fuel_indep {chunkChars overlapChars : Nat} {l : List Char}
    (hoc : overlapChars < chunkChars) :
    ∀ (f₁ f₂ pos : Nat) (acc : List (List Char)),
      l.length - pos < f₁ → l.length - pos < f₂ →
      splitLoopF chunkChars overlapChars l f₁ pos acc =
        splitLoopF chunkChars overlapChars l f₂ pos acc := by
  intro f₁
  induction f₁ with
  | zero => intro f₂ pos acc h₁ h₂; omega
  | succ g₁ ih =>
    intro f₂ pos acc h₁ h₂
    match f₂, h₂ with
    | g₂ + 1, h₂ =>
      rw [splitLoopF, splitLoopF]
      by_cases hp : pos < l.length
      · rw [if_pos hp, if_pos hp]
        by_cases he : min (pos + chunkChars) l.length < l.length
        · rw [if_pos he, if_pos he]
          have hend : pos + chunkChars < l.length := by omega
          have hadv := (nextCursor_advance hend hoc).1
          exact ih _ _ _ (by omega) (by omega)
        · rw [if_neg he, if_neg he]
      · rw [if_neg hp, if_neg hp]

/-- C9: with valid parameters the loop cursor strictly advances on every
iteration that carves a further window -- to `end_of_chunk` minus the overlap
in characters, or to `end_of_chunk` on the fallback -- so the loop terminates
within text-length many iterations, `split_text` always returns a finite
chunk sequence, and the result is deterministic: any sufficient fuel yields
the same chunks. -/
theorem chunk_loop_spec (text : String) (chunk_size overlap : Int)
    (hcs : 0 < chunk_size) (hov : 0 ≤ overlap) (hoc : overlap < chunk_size) :
    (∃ chunks, split_text text chunk_size overlap = Except.ok chunks) ∧
    (∀ pos, pos + chunk_size.toNat * 4 < text.data.length →
      pos < nextCursor (chunk_size.toNat * 4) (overlap.toNat * 4) text.data pos ∧
      (nextCursor (chunk_size.toNat * 4) (overlap.toNat * 4) text.data pos =
          pos + chunk_size.toNat * 4 - overlap.toNat * 4 ∨
        nextCursor (chunk_size.toNat * 4) (overlap.toNat * 4) text.data pos =
          pos + chunk_size.toNat * 4)) ∧
    (∀ fuel fuel', text.data.length < fuel → text.data.length < fuel' →
      (splitLoopF (chunk_size.toNat * 4) (overlap.toNat * 4) text.data fuel 0 []).isSome ∧
      splitLoopF (chunk_size.toNat * 4) (overlap.toNat * 4) text.data fuel 0 [] =
        splitLoopF (chunk_size.toNat * 4) (overlap.toNat * 4) text.data fuel' 0 []) := by
  have hocn : overlap.toNat * 4 < chunk_size.toNat * 4 := by omega
  refine ⟨?_, ?_, ?_⟩
  · rw [split_text, if_neg (by omega), if_neg (by omega), if_neg (by omega)]
    by_cases h₁ : pyStrip text.data = []
    · rw [if_pos h₁]
      exact ⟨[], rfl⟩
    · rw [if_neg h₁]
      by_cases h₂ : (estimate_tokens text : Int) ≤ chunk_size
      · rw [if_pos h₂]
        exact ⟨[text], rfl⟩
      · rw [if_neg h₂]
        have hs := @splitLoopF_isSome (chunk_size.toNat * 4) (overlap.toNat * 4)
          text.data hocn (text.data.length + 1) 0 [] (by omega)
        cases hres : splitLoopF (chunk_size.toNat * 4) (overlap.toNat * 4) text.data
            (text.data.length + 1) 0 [] with
        | none => rw [hres] at hs; cases hs
        | some chunks => exact ⟨chunks.map (fun c => String.mk c), rfl⟩
  · intro pos hpos
    exact nextCursor_advance hpos hocn
  · intro fuel fuel' hf hf'
    exact ⟨splitLoopF_isSome hocn fuel 0 [] (by omega),
      splitLoopF_fuel_indep hocn fuel fuel' 0 [] (by omega) (by omega)⟩

theorem chunk_loop_spec_witness :
    (0 : Int) < 2 ∧ (0 : Int) ≤ 0 ∧ (0 : Int) < 2 ∧
    ((∃ chunks, split_text "aa bb cc dde" 2 0 = Except.ok chunks) ∧
     (∀ pos, pos + (2 : Int).toNat * 4 < "aa bb cc dde".data.length →
       pos < nextCursor ((2 : Int).toNat * 4) ((0 : Int).toNat * 4) "aa bb cc dde".data pos ∧
       (nextCursor ((2 : Int).toNat * 4) ((0 : Int).toNat * 4) "aa bb cc dde".data pos =
           pos + (2 : Int).toNat * 4 - (0 : Int).toNat * 4 ∨
         nextCursor ((2 : Int).toNat * 4) ((0 : Int).toNat * 4) "aa bb cc dde".data pos =
           pos + (2 : Int).toNat * 4)) ∧
     (∀ fuel fuel', "aa bb cc dde".data.length < fuel → "aa bb cc dde".data.length < fuel' →
       (splitLoopF ((2 : Int).toNat * 4) ((0 : Int).toNat * 4) "aa bb cc dde".data
         fuel 0 []).isSome ∧
       splitLoopF ((2 : Int).toNat * 4) ((0 : Int).toNat * 4) "aa bb cc dde".data fuel 0 [] =
         splitLoopF ((2 : Int).toNat * 4) ((0 : Int).toNat * 4) "aa bb cc dde".data
           fuel' 0 [])) :=
  ⟨by decide, by decide, by decide,
    chunk_loop_spec "aa bb cc dde" 2 0 (by decide) (by decide) (by decide)⟩

/-! ### Declarative boundary notions and run infrastructure -/

/-- Positions `i, i+1` hold a paragraph break (two adjacent newlines). -/
def paraPairB (l : List Char) (i : Nat) : Bool :=
  decide (i + 1 < l.length) && isNlChar (l.getD i ' ') && isNlChar (l.getD (i + 1) ' ')

def hasParaPairB (l : List Char) : Bool := (List.range l.length).any (paraPairB l)

/-- Position `i` starts a sentence break: `.`, `!` or `?` followed by
whitespace. -/
def sentStartB (l : List Char) (i : Nat) : Bool :=
  isSentPunct (l.getD i ' ') && decide (i + 1 < l.length) && isSpaceChar (l.getD (i + 1) ' ')

def hasSentStartB (l : List Char) : Bool := (List.range l.length).any (sentStartB l)

/-- Position `i` begins a maximal whitespace run (a word break). -/
def wsStartB (l : List Char) (i : Nat) : Bool :=
  decide (i < l.length) && isSpaceChar (l.getD i ' ') &&
    (decide (i = 0) || ! isSpaceChar (l.getD (i - 1) ' '))

/-- Number of word breaks (maximal whitespace runs) of the window. -/
def wsRunCount (l : List Char) : Nat := (List.range l.length).countP (wsStartB l)

theorem getD_eq_getElem_of_lt {α : Type} (l : List α) (i : Nat) (d : α) (h : i < l.length) :
    l.getD i d = l[i] := by
  rw [List.getD_eq_getElem?_getD, List.getElem?_eq_getElem h, Option.getD_some]

theorem getD_drop_char (l : List Char) (i k : Nat) (d : Char) :
    (l.drop i).getD k d = l.getD (i + k) d := by
  rw [List.getD_eq_getElem?_getD, List.getD_eq_getElem?_getD, List.getElem?_drop]

theorem takeWhile_getD_true (p : Char → Bool) :
    ∀ (l : List Char) (k : Nat), k < (l.takeWhile p).length → p (l.getD k ' ') = true := by
  intro l
  induction l with
  | nil => intro k h; simp [List.takeWhile] at h
  | cons a l ih =>
    intro k h
    cases hp : p a with
    | false => rw [List.takeWhile_cons_of_neg (by simp [hp])] at h; simp at h
    | true =>
      rw [List.takeWhile_cons_of_pos hp] at h
      cases k with
      | zero => simpa using hp
      | succ k' =>
        simp only [List.length_cons, Nat.succ_lt_succ_iff] at h
        simpa using ih k' h

theorem takeWhile_length_boundary (p : Char → Bool) :
    ∀ (l : List Char), (l.takeWhile p).length < l.length →
      p (l.getD (l.takeWhile p).length ' ') = false := by
  intro l
  induction l with
  | nil => intro h; simp at h
  | cons a l ih =>
    intro h
    cases hp : p a with
    | false =>
      rw [List.takeWhile_cons_of_neg (by simp [hp])]
      simpa using hp
    | true =>
      rw [List.takeWhile_cons_of_pos hp] at h ⊢
      simp only [List.length_cons, Nat.succ_lt_succ_iff] at h
      simpa using ih h

theorem takeWhile_length_ge (p : Char → Bool) :
    ∀ (l : List Char) (k : Nat), k ≤ l.length →
      (∀ m, m < k → p (l.getD m ' ') = true) → k ≤ (l.takeWhile p).length := by
  intro l
  induction l with
  | nil => intro k h _; simpa using h
  | cons a l ih =>
    intro k hk hall
    cases k with
    | zero => omega
    | succ k' =>
      have hpa : p a = true := by simpa using hall 0 (by omega)
      rw [List.takeWhile_cons_of_pos hpa]
      simp only [List.length_cons, Nat.succ_le_succ_iff]
      refine ih k' (by simpa using hk) ?_
      intro m hm
      simpa using hall (m + 1) (by omega)

theorem runEnd_le (p : Char → Bool) (l : List Char) (i : Nat) (h : i ≤ l.length) :
    runEnd p l i ≤ l.length := by
  have htp : (l.drop i).takeWhile p <+: l.drop i := List.takeWhile_prefix p
  have := htp.length_le
  rw [runEnd]
  simp only [List.length_drop] at this
  omega

theorem runEnd_chars (p : Char → Bool) (l : List Char) (i : Nat) :
    ∀ j, i ≤ j → j < runEnd p l i → p (l.getD j ' ') = true := by
  intro j hij hj
  rw [runEnd] at hj
  have hk := takeWhile_getD_true p (l.drop i) (j - i) (by omega)
  rw [getD_drop_char] at hk
  rwa [show i + (j - i) = j by omega] at hk

theorem runEnd_boundary (p : Char → Bool) (l : List Char) (i : Nat)
    (h : runEnd p l i < l.length) :
    p (l.getD (runEnd p l i) ' ') = false := by
  have hi : i ≤ l.length := by rw [runEnd] at h; omega
  have hlt : ((l.drop i).takeWhile p).length < (l.drop i).length := by
    rw [runEnd] at h
    simp only [List.length_drop]
    omega
  have := takeWhile_length_boundary p (l.drop i) hlt
  rw [getD_drop_char] at this
  rwa [runEnd]

theorem runEnd_grow (p : Char → Bool) (l : List Char) (i : Nat)
    (hi : i < l.length) (hp : p (l.getD i ' ') = true) : i < runEnd p l i := by
  have h1 : 1 ≤ ((l.drop i).takeWhile p).length := by
    refine takeWhile_length_ge p (l.drop i) 1 (by simp; omega) ?_
    intro m hm
    have : m = 0 := by omega
    subst this
    rw [getD_drop_char]
    simpa using hp
  rw [runEnd]
  omega

theorem mem_runStartsF (p : Char → Bool) (l : List Char) (i : Nat) :
    i ∈ runStartsF p l ↔
      i < l.length ∧ p (l.getD i ' ') = true ∧
        (i = 0 ∨ p (l.getD (i - 1) ' ') = false) := by
  rw [runStartsF, List.mem_filter, List.mem_range]
  simp only [Bool.and_eq_true, Bool.or_eq_true, decide_eq_true_eq, Bool.not_eq_true',
    and_assoc]

theorem run_cover (p : Char → Bool) (l : List Char) :
    ∀ j, j < l.length → p (l.getD j ' ') = true →
      ∃ s, s ∈ runStartsF p l ∧ s ≤ j ∧ j < runEnd p l s := by
  intro j
  induction j using Nat.strong_induction_on with
  | _ j ih =>
    intro hj hp
    by_cases h0 : j = 0 ∨ p (l.getD (j - 1) ' ') = false
    · exact ⟨j, (mem_runStartsF p l j).mpr ⟨hj, hp, h0⟩, Nat.le_refl j,
        runEnd_grow p l j hj hp⟩
    · push_neg at h0
      obtain ⟨hj0, hprev⟩ := h0
      have hprev' : p (l.getD (j - 1) ' ') = true := by
        cases hx : p (l.getD (j - 1) ' ') with
        | false => exact absurd hx hprev
        | true => rfl
      obtain ⟨s, hs, hsle, hlt⟩ := ih (j - 1) (by omega) (by omega) hprev'
      refine ⟨s, hs, by omega, ?_⟩
      by_cases hj2 : j < runEnd p l s
      · exact hj2
      · exfalso
        have he : runEnd p l s = j := by omega
        have := runEnd_boundary p l s (by omega)
        rw [he, hp] at this
        cases this

theorem runStartsF_sorted (p : Char → Bool) (l : List Char) :
    (runStartsF p l).Pairwise (· < ·) :=
  List.Pairwise.sublist (List.filter_sublist _) (List.pairwise_lt_range _)

theorem sorted_getLast?_max {α : Type} {R : α → α → Prop} :
    ∀ {L : List α} {m : α}, L.Pairwise R → L.getLast? = some m →
      ∀ x ∈ L, x = m ∨ R x m := by
  intro L
  induction L with
  | nil => intro m _ hm; cases hm
  | cons a L ih =>
    intro m hpw hm x hx
    rw [List.pairwise_cons] at hpw
    cases L with
    | nil =>
      simp only [List.getLast?_singleton, Option.some.injEq] at hm
      subst hm
      simp only [List.mem_singleton] at hx
      exact Or.inl hx
    | cons b L' =>
      rw [List.getLast?_cons_cons] at hm
      rcases List.mem_cons.mp hx with rfl | hx'
      · exact Or.inr (hpw.1 m (List.mem_of_getLast?_eq_some hm))
      · exact ih hpw.2 hm x hx'

theorem sentPunct_not_space {c : Char} (h : isSentPunct c = true) :
    isSpaceChar c = false := by
  rw [isSentPunct] at h
  simp only [Bool.or_eq_true, beq_iff_eq] at h
  rcases h with (rfl | rfl) | rfl <;> rfl

theorem mem_pyParaMatches (l : List Char) (m : Nat × Nat) :
    m ∈ pyParaMatches l ↔
      m.1 ∈ runStartsF isNlChar l ∧ m.2 = runEnd isNlChar l m.1 ∧ m.1 + 2 ≤ m.2 := by
  rw [pyParaMatches, List.mem_filterMap]
  constructor
  · rintro ⟨i, hi, hif⟩
    by_cases hc : i + 2 ≤ runEnd isNlChar l i
    · rw [if_pos hc] at hif
      have := Option.some.inj hif
      subst this
      exact ⟨hi, rfl, hc⟩
    · rw [if_neg hc] at hif
      cases hif
  · rintro ⟨h1, h2, h3⟩
    refine ⟨m.1, h1, ?_⟩
    rw [if_pos (by omega : m.1 + 2 ≤ runEnd isNlChar l m.1)]
    rw [← h2]

theorem pyParaMatches_sorted (l : List Char) :
    (pyParaMatches l).Pairwise (fun m₁ m₂ => m₁.1 < m₂.1) := by
  rw [pyParaMatches, List.pairwise_filterMap]
  refine List.Pairwise.imp ?_ (runStartsF_sorted isNlChar l)
  intro a b hab x hx y hy
  by_cases ha : a + 2 ≤ runEnd isNlChar l a
  · rw [if_pos ha] at hx
    by_cases hb : b + 2 ≤ runEnd isNlChar l b
    · rw [if_pos hb] at hy
      simp only [Option.mem_def, Option.some.injEq] at hx hy
      subst hx
      subst hy
      exact hab
    · rw [if_neg hb] at hy
      cases hy
  · rw [if_neg ha] at hx
    cases hx

theorem paraMatches_nil (l : List Char) (h : hasParaPairB l = false) :
    pyParaMatches l = [] := by
  cases hm : pyParaMatches l with
  | nil => rfl
  | cons m ms =>
    exfalso
    have hmem : m ∈ pyParaMatches l := by rw [hm]; exact List.mem_cons_self _ _
    obtain ⟨h1, h2, h3⟩ := (mem_pyParaMatches l m).mp hmem
    obtain ⟨hlt, hnl, _⟩ := (mem_runStartsF _ _ _).mp h1
    have hle := runEnd_le isNlChar l m.1 (by omega)
    have hnl2 : isNlChar (l.getD (m.1 + 1) ' ') = true :=
      runEnd_chars isNlChar l m.1 (m.1 + 1) (by omega) (by omega)
    have hpair : paraPairB l m.1 = true := by
      rw [paraPairB]
      simp only [Bool.and_eq_true, decide_eq_true_eq]
      exact ⟨⟨by omega, hnl⟩, hnl2⟩
    have hcontra : hasParaPairB l = true := by
      rw [hasParaPairB, List.any_eq_true]
      exact ⟨m.1, List.mem_range.mpr (by omega), hpair⟩
    rw [h] at hcontra
    cases hcontra

theorem split_boundary_para (l : List Char) (h : hasParaPairB l = true) :
    ∃ e, 2 ≤ e ∧ e ≤ l.length ∧ split_at_boundary l = pyRstrip (l.take e) ∧
      isNlChar (l.getD (e - 2) ' ') = true ∧ isNlChar (l.getD (e - 1) ' ') = true ∧
      (e = l.length ∨ isNlChar (l.getD e ' ') = false) ∧
      (∀ j, e ≤ j → paraPairB l j = false) := by
  rw [hasParaPairB, List.any_eq_true] at h
  obtain ⟨i, hir, hpair⟩ := h
  rw [paraPairB] at hpair
  simp only [Bool.and_eq_true, decide_eq_true_eq] at hpair
  obtain ⟨⟨hi1, hnli⟩, hnli1⟩ := hpair
  obtain ⟨s, hsmem, hsle, hslt⟩ := run_cover isNlChar l i (by omega) hnli
  have hsl := (mem_runStartsF _ _ _).mp hsmem
  have hre_le := runEnd_le isNlChar l s (by omega)
  have h2lt : i + 1 < runEnd isNlChar l s := by
    by_cases hx : i + 1 < runEnd isNlChar l s
    · exact hx
    · exfalso
      have he : runEnd isNlChar l s = i + 1 := by omega
      have hb := runEnd_boundary isNlChar l s (by omega)
      rw [he, hnli1] at hb
      cases hb
  have hmm : (s, runEnd isNlChar l s) ∈ pyParaMatches l :=
    (mem_pyParaMatches l _).mpr ⟨hsmem, rfl, by omega⟩
  have hnn : pyParaMatches l ≠ [] := fun he => by rw [he] at hmm; cases hmm
  obtain ⟨mL, hlast⟩ : ∃ mL, (pyParaMatches l).getLast? = some mL := by
    cases hq : (pyParaMatches l).getLast? with
    | none => exact absurd (List.getLast?_eq_none_iff.mp hq) hnn
    | some mL => exact ⟨mL, rfl⟩
  have hLmem := List.mem_of_getLast?_eq_some hlast
  obtain ⟨hL1, hL2, hL3⟩ := (mem_pyParaMatches l mL).mp hLmem
  obtain ⟨hLlt, hLnl, _⟩ := (mem_runStartsF _ _ _).mp hL1
  have hLle := runEnd_le isNlChar l mL.1 (by omega)
  refine ⟨mL.2, by omega, by omega, ?_, ?_, ?_, ?_, ?_⟩
  · rw [split_at_boundary, hlast]
  · exact runEnd_chars isNlChar l mL.1 (mL.2 - 2) (by omega) (by omega)
  · exact runEnd_chars isNlChar l mL.1 (mL.2 - 1) (by omega) (by omega)
  · by_cases hEnd : mL.2 = l.length
    · exact Or.inl hEnd
    · refine Or.inr ?_
      have hb := runEnd_boundary isNlChar l mL.1 (by omega)
      rwa [← hL2] at hb
  · intro j hj
    cases hq : paraPairB l j with
    | false => rfl
    | true =>
      exfalso
      rw [paraPairB] at hq
      simp only [Bool.and_eq_true, decide_eq_true_eq] at hq
      obtain ⟨⟨hj1, hnlj⟩, hnlj1⟩ := hq
      obtain ⟨s', hs'mem, hs'le, hs'lt⟩ := run_cover isNlChar l j (by omega) hnlj
      have hs'l := (mem_runStartsF _ _ _).mp hs'mem
      have hre'_le := runEnd_le isNlChar l s' (by omega)
      have h2lt' : j + 1 < runEnd isNlChar l s' := by
        by_cases hx : j + 1 < runEnd isNlChar l s'
        · exact hx
        · exfalso
          have he : runEnd isNlChar l s' = j + 1 := by omega
          have hb := runEnd_boundary isNlChar l s' (by omega)
          rw [he, hnlj1] at hb
          cases hb
      have hmm' : (s', runEnd isNlChar l s') ∈ pyParaMatches l :=
        (mem_pyParaMatches l _).mpr ⟨hs'mem, rfl, by omega⟩
      have hmax := sorted_getLast?_max (pyParaMatches_sorted l) hlast _ hmm'
      rcases hmax with heq | hlt'
      · have he2 : runEnd isNlChar l s' = mL.2 := congrArg Prod.snd heq
        omega
      · simp only at hlt'
        have hnlL : isNlChar (l.getD mL.2 ' ') = true :=
          runEnd_chars isNlChar l s' mL.2 (by omega) (by omega)
        have hbL := runEnd_boundary isNlChar l mL.1 (by omega)
        rw [← hL2] at hbL
        rw [hnlL] at hbL
        cases hbL

theorem pySentStarts_eq (l : List Char) :
    pySentStarts l = (List.range l.length).filter (sentStartB l) := rfl

theorem mem_pySentStarts (l : List Char) (i : Nat) :
    i ∈ pySentStarts l ↔ sentStartB l i = true := by
  rw [pySentStarts_eq, List.mem_filter, List.mem_range]
  constructor
  · exact fun h => h.2
  · intro h
    refine ⟨?_, h⟩
    rw [sentStartB] at h
    simp only [Bool.and_eq_true, decide_eq_true_eq] at h
    omega

theorem pySentStarts_sorted (l : List Char) : (pySentStarts l).Pairwise (· < ·) := by
  rw [pySentStarts_eq]
  exact List.Pairwise.sublist (List.filter_sublist _) (List.pairwise_lt_range _)

theorem two_mem_length {α : Type} {L : List α} {a b : α}
    (ha : a ∈ L) (hb : b ∈ L) (hab : a ≠ b) : 2 ≤ L.length := by
  cases L with
  | nil => cases ha
  | cons x L' =>
    cases L' with
    | nil =>
      simp only [List.mem_singleton] at ha hb
      subst ha
      subst hb
      exact absurd rfl hab
    | cons y L'' =>
      simp only [List.length_cons]
      omega

theorem sentMatches_length (l : List Char) :
    (pySentMatches l).length = (pySentStarts l).length := by
  rw [pySentMatches, List.length_map]

theorem sentMatches_getD (l : List Char) (k : Nat) (hk : k < (pySentStarts l).length) :
    (pySentMatches l).getD k (0, 0) =
      ((pySentStarts l).get ⟨k, hk⟩,
        runEnd isSpaceChar l ((pySentStarts l).get ⟨k, hk⟩ + 1)) := by
  rw [pySentMatches, List.getD_eq_getElem?_getD, List.getElem?_map,
    List.getElem?_eq_getElem hk]
  rfl

theorem split_boundary_sent (l : List Char) (hpara : hasParaPairB l = false)
    (hsent : hasSentStartB l = true) :
    ∃ i e, sentStartB l i = true ∧ i + 2 ≤ e ∧ e ≤ l.length ∧
      split_at_boundary l = pyRstrip (l.take e) ∧
      (∀ j, i < j → j < e → isSpaceChar (l.getD j ' ') = true) ∧
      (e = l.length ∨ isSpaceChar (l.getD e ' ') = false) ∧
      ((∃ a b, a < b ∧ sentStartB l a = true ∧ sentStartB l b = true) →
        (∃ j, e ≤ j ∧ sentStartB l j = true) ∧
        (∀ j k, e ≤ j → sentStartB l j = true → e ≤ k → sentStartB l k = true → j = k)) ∧
      ((¬ ∃ a b, a < b ∧ sentStartB l a = true ∧ sentStartB l b = true) →
        ∀ j, e ≤ j → sentStartB l j = false) := by
  rw [hasSentStartB, List.any_eq_true] at hsent
  obtain ⟨i0, _, hs0⟩ := hsent
  have hi0S : i0 ∈ pySentStarts l := (mem_pySentStarts l i0).mpr hs0
  have hn1 : 1 ≤ (pySentStarts l).length := by
    cases hq : pySentStarts l with
    | nil => rw [hq] at hi0S; cases hi0S
    | cons x L => simp [hq]
  have hsmne : ¬ ((pySentMatches l).isEmpty = true) := by
    rw [List.isEmpty_iff]
    intro hempty
    have hlen := congrArg List.length hempty
    rw [sentMatches_length] at hlen
    simp only [List.length_nil] at hlen
    omega
  have hsorted := pySentStarts_sorted l
  rw [List.pairwise_iff_getElem] at hsorted
  have hsab : split_at_boundary l =
      pyRstrip (l.take ((pySentMatches l).getD
        (if 2 ≤ (pySentMatches l).length then (pySentMatches l).length - 2
          else (pySentMatches l).length - 1) (0, 0)).2) := by
    rw [split_at_boundary, paraMatches_nil l hpara]
    show (if (pySentMatches l).isEmpty then _ else _) = _
    rw [if_neg hsmne]
  rw [sentMatches_length] at hsab
  by_cases h2n : 2 ≤ (pySentStarts l).length
  · rw [if_pos h2n] at hsab
    have hk : (pySentStarts l).length - 2 < (pySentStarts l).length := by omega
    have hk1 : (pySentStarts l).length - 1 < (pySentStarts l).length := by omega
    rw [sentMatches_getD l _ hk] at hsab
    have hstart : sentStartB l
        ((pySentStarts l).get ⟨(pySentStarts l).length - 2, hk⟩) = true :=
      (mem_pySentStarts l _).mp (List.get_mem _ _ _)
    have hstart2 := hstart
    rw [sentStartB] at hstart2
    simp only [Bool.and_eq_true, decide_eq_true_eq] at hstart2
    obtain ⟨⟨hpunct, hilt⟩, hws⟩ := hstart2
    have hgrow := runEnd_grow isSpaceChar l _ hilt hws
    have hele := runEnd_le isSpaceChar l
      ((pySentStarts l).get ⟨(pySentStarts l).length - 2, hk⟩ + 1) (by omega)
    have hlast_start : sentStartB l
        ((pySentStarts l).get ⟨(pySentStarts l).length - 1, hk1⟩) = true :=
      (mem_pySentStarts l _).mp (List.get_mem _ _ _)
    have hmono : (pySentStarts l).get ⟨(pySentStarts l).length - 2, hk⟩ <
        (pySentStarts l).get ⟨(pySentStarts l).length - 1, hk1⟩ :=
      hsorted _ _ hk hk1 (by omega)
    have hchars : ∀ j, (pySentStarts l).get ⟨(pySentStarts l).length - 2, hk⟩ < j →
        j < runEnd isSpaceChar l
          ((pySentStarts l).get ⟨(pySentStarts l).length - 2, hk⟩ + 1) →
        isSpaceChar (l.getD j ' ') = true := by
      intro j hj1 hj2
      exact runEnd_chars isSpaceChar l _ j (by omega) hj2
    have hlast_ge : runEnd isSpaceChar l
        ((pySentStarts l).get ⟨(pySentStarts l).length - 2, hk⟩ + 1) ≤
        (pySentStarts l).get ⟨(pySentStarts l).length - 1, hk1⟩ := by
      by_contra hlt
      push_neg at hlt
      have hwsl := hchars _ hmono hlt
      have hp := hlast_start
      rw [sentStartB] at hp
      simp only [Bool.and_eq_true, decide_eq_true_eq] at hp
      have hnws := sentPunct_not_space hp.1.1
      rw [hwsl] at hnws
      cases hnws
    have hindex : ∀ j, runEnd isSpaceChar l
        ((pySentStarts l).get ⟨(pySentStarts l).length - 2, hk⟩ + 1) ≤ j →
        sentStartB l j = true →
        j = (pySentStarts l).get ⟨(pySentStarts l).length - 1, hk1⟩ := by
      intro j hej hsj
      have hjS : j ∈ pySentStarts l := (mem_pySentStarts l j).mpr hsj
      obtain ⟨a, ha, hSa⟩ := List.mem_iff_getElem.mp hjS
      by_cases han : a = (pySentStarts l).length - 1
      · subst han
        rw [← hSa]
        rfl
      · exfalso
        have hle2 : (pySentStarts l)[a] ≤
            (pySentStarts l).get ⟨(pySentStarts l).length - 2, hk⟩ := by
          by_cases ha2 : a = (pySentStarts l).length - 2
          · subst ha2
            exact Nat.le_refl _
          · have := hsorted a ((pySentStarts l).length - 2) ha hk (by omega)
            exact Nat.le_of_lt this
        omega
    refine ⟨_, _, hstart, by omega, hele, hsab, hchars, ?_, ?_, ?_⟩
    · by_cases hEnd : runEnd isSpaceChar l
          ((pySentStarts l).get ⟨(pySentStarts l).length - 2, hk⟩ + 1) = l.length
      · exact Or.inl hEnd
      · exact Or.inr (runEnd_boundary isSpaceChar l _ (by omega))
    · intro _
      refine ⟨⟨(pySentStarts l).get ⟨(pySentStarts l).length - 1, hk1⟩,
        hlast_ge, hlast_start⟩, ?_⟩
      intro j k₂ hej hsj hek hsk
      rw [hindex j hej hsj, hindex k₂ hek hsk]
    · intro hno
      exact absurd ⟨_, _, hmono, hstart, hlast_start⟩ hno
  · rw [if_neg h2n] at hsab
    have hn : (pySentStarts l).length = 1 := by omega
    obtain ⟨x, hx⟩ := List.length_eq_one.mp hn
    have hxS : x ∈ pySentStarts l := by rw [hx]; exact List.mem_singleton_self x
    have hstartx : sentStartB l x = true := (mem_pySentStarts l x).mp hxS
    have hstart2 := hstartx
    rw [sentStartB] at hstart2
    simp only [Bool.and_eq_true, decide_eq_true_eq] at hstart2
    obtain ⟨⟨hpunct, hilt⟩, hws⟩ := hstart2
    have hgrow := runEnd_grow isSpaceChar l _ hilt hws
    have hele := runEnd_le isSpaceChar l (x + 1) (by omega)
    have hm1 : pySentMatches l = [(x, runEnd isSpaceChar l (x + 1))] := by
      rw [pySentMatches, hx]
      rfl
    rw [hn, hm1] at hsab
    simp only [List.getD] at hsab
    have honly : ∀ j, sentStartB l j = true → j = x := by
      intro j hsj
      have hjS : j ∈ pySentStarts l := (mem_pySentStarts l j).mpr hsj
      rw [hx] at hjS
      exact List.mem_singleton.mp hjS
    refine ⟨x, runEnd isSpaceChar l (x + 1), hstartx, by omega, hele, hsab, ?_, ?_, ?_, ?_⟩
    · intro j hj1 hj2
      exact runEnd_chars isSpaceChar l (x + 1) j (by omega) hj2
    · by_cases hEnd : runEnd isSpaceChar l (x + 1) = l.length
      · exact Or.inl hEnd
      · exact Or.inr (runEnd_boundary isSpaceChar l _ (by omega))
    · intro h2
      exfalso
      obtain ⟨a, b, hab, hsa, hsb⟩ := h2
      have ha := honly a hsa
      have hb := honly b hsb
      omega
    · intro _ j hej
      cases hq : sentStartB l j with
      | false => rfl
      | true =>
        exfalso
        have := honly j hq
        omega

theorem count_below_getElem (q : Nat → Bool) (len k : Nat)
    (hk : k < ((List.range len).filter q).length) :
    (List.range (((List.range len).filter q).get ⟨k, hk⟩)).countP q = k := by
  have hmem : ((List.range len).filter q).get ⟨k, hk⟩ ∈ (List.range len).filter q :=
    List.get_mem _ _ _
  have hq : q (((List.range len).filter q).get ⟨k, hk⟩) = true := List.of_mem_filter hmem
  have hlt : ((List.range len).filter q).get ⟨k, hk⟩ < len :=
    List.mem_range.mp (List.mem_of_mem_filter hmem)
  set s := ((List.range len).filter q).get ⟨k, hk⟩ with hs
  have hsplit : List.range len = List.range s ++ List.range' s (len - s) := by
    have h := List.range'_append_1 0 s (len - s)
    rw [Nat.zero_add] at h
    rw [show len - s + s = len from by omega] at h
    rw [List.range_eq_range', ← h, List.range_eq_range']
  have hrange2 : List.range' s (len - s) = s :: List.range' (s + 1) (len - s - 1) := by
    rw [show len - s = (len - s - 1) + 1 from by omega, List.range'_succ]
    simp
  have hfilter : (List.range len).filter q =
      ((List.range s).filter q) ++ s :: (List.range' (s + 1) (len - s - 1)).filter q := by
    rw [hsplit, List.filter_append, hrange2, List.filter_cons, if_pos (by rw [hq])]
  have hnd : ((List.range len).filter q).Nodup := (List.nodup_range len).filter q
  have hAl : ((List.range s).filter q).length < ((List.range len).filter q).length := by
    rw [hfilter, List.length_append, List.length_cons]
    omega
  have h1 : ((List.range len).filter q)[((List.range s).filter q).length]? = some s := by
    rw [hfilter, List.getElem?_append_right (Nat.le_refl _)]
    simp
  have h2 : ((List.range len).filter q)[((List.range s).filter q).length]? =
      some (((List.range len).filter q)[((List.range s).filter q).length]) :=
    List.getElem?_eq_getElem hAl
  rw [h1] at h2
  have h3 : ((List.range len).filter q)[k] = ((List.range len).filter q)[((List.range s).filter q).length] := by
    rw [← Option.some.inj h2]
    exact hs.symm
  have hkA : k = ((List.range s).filter q).length := hnd.getElem_inj_iff.mp h3
  rw [List.countP_eq_length_filter, ← hkA]

theorem pyWsMatches_length (l : List Char) :
    (pyWsMatches l).length = (runStartsF isSpaceChar l).length := by
  rw [pyWsMatches, List.length_map]

theorem wsRunCount_eq (l : List Char) :
    wsRunCount l = (runStartsF isSpaceChar l).length := by
  rw [wsRunCount, List.countP_eq_length_filter, runStartsF]
  congr 1
  refine List.filter_congr ?_
  intro i hi
  rw [List.mem_range] at hi
  rw [wsStartB]
  simp [hi]

theorem runStartsF_eq_filter_wsStartB (l : List Char) :
    runStartsF isSpaceChar l = (List.range l.length).filter (wsStartB l) := by
  rw [runStartsF]
  refine (List.filter_congr ?_).symm
  intro i hi
  rw [List.mem_range] at hi
  rw [wsStartB]
  simp [hi]

theorem sentStarts_nil (l : List Char) (h : hasSentStartB l = false) :
    pySentStarts l = [] := by
  cases hq : pySentStarts l with
  | nil => rfl
  | cons x L =>
    exfalso
    have hx : x ∈ pySentStarts l := by rw [hq]; exact List.mem_cons_self _ _
    have hsx := (mem_pySentStarts l x).mp hx
    have hxlen : x < l.length := by
      have := hsx
      rw [sentStartB] at this
      simp only [Bool.and_eq_true, decide_eq_true_eq] at this
      omega
    have hcontra : hasSentStartB l = true := by
      rw [hasSentStartB, List.any_eq_true]
      exact ⟨x, List.mem_range.mpr hxlen, hsx⟩
    rw [h] at hcontra
    cases hcontra

theorem split_boundary_word (l : List Char) (hpara : hasParaPairB l = false)
    (hsent : hasSentStartB l = false) (hcnt : 10 < wsRunCount l) :
    ∃ s e, wsStartB l s = true ∧ s < e ∧ e ≤ l.length ∧
      split_at_boundary l = pyRstrip (l.take e) ∧
      (∀ j, s ≤ j → j < e → isSpaceChar (l.getD j ' ') = true) ∧
      (e = l.length ∨ isSpaceChar (l.getD e ' ') = false) ∧
      (List.range s).countP (wsStartB l) = wsRunCount l * 4 / 5 := by
  have hsm : pySentMatches l = [] := by
    rw [pySentMatches, sentStarts_nil l hsent]
    rfl
  have hwm_len : (pyWsMatches l).length = wsRunCount l := by
    rw [pyWsMatches_length, wsRunCount_eq]
  have hkm : (pyWsMatches l).length * 4 / 5 < (runStartsF isSpaceChar l).length := by
    rw [← wsRunCount_eq, hwm_len]
    omega
  have hsab : split_at_boundary l =
      pyRstrip (l.take ((pyWsMatches l).getD ((pyWsMatches l).length * 4 / 5) (0, 0)).2) := by
    rw [split_at_boundary, paraMatches_nil l hpara]
    show (if (pySentMatches l).isEmpty then _ else _) = _
    rw [hsm]
    simp only [List.isEmpty_nil, if_true]
    rw [if_pos (by omega : 10 < (pyWsMatches l).length)]
  have hgen : ∀ (n : Nat) (hn : n < (runStartsF isSpaceChar l).length),
      (pyWsMatches l).getD n (0, 0) =
        ((runStartsF isSpaceChar l).get ⟨n, hn⟩,
          runEnd isSpaceChar l ((runStartsF isSpaceChar l).get ⟨n, hn⟩)) := by
    intro n hn
    rw [List.getD_eq_getElem?_getD,
      show pyWsMatches l = (runStartsF isSpaceChar l).map
        (fun i => (i, runEnd isSpaceChar l i)) from rfl,
      List.getElem?_map, List.getElem?_eq_getElem hn]
    rfl
  have hgetD := hgen ((pyWsMatches l).length * 4 / 5) hkm
  have hsmem : (runStartsF isSpaceChar l).get ⟨(pyWsMatches l).length * 4 / 5, hkm⟩ ∈
      runStartsF isSpaceChar l := List.get_mem _ _ _
  obtain ⟨hslt, hsws, hprev⟩ := (mem_runStartsF _ _ _).mp hsmem
  have hwsb : wsStartB l
      ((runStartsF isSpaceChar l).get ⟨(pyWsMatches l).length * 4 / 5, hkm⟩) = true := by
    rw [wsStartB]
    simp only [Bool.and_eq_true, Bool.or_eq_true, decide_eq_true_eq, Bool.not_eq_true']
    exact ⟨⟨hslt, hsws⟩, hprev⟩
  have hfinal : split_at_boundary l = pyRstrip (l.take (runEnd isSpaceChar l
      ((runStartsF isSpaceChar l).get ⟨(pyWsMatches l).length * 4 / 5, hkm⟩))) := by
    rw [hsab, hgetD]
  refine ⟨(runStartsF isSpaceChar l).get ⟨(pyWsMatches l).length * 4 / 5, hkm⟩,
    runEnd isSpaceChar l ((runStartsF isSpaceChar l).get ⟨(pyWsMatches l).length * 4 / 5, hkm⟩),
    hwsb, runEnd_grow _ _ _ hslt hsws, runEnd_le _ _ _ (by omega), hfinal, ?_, ?_, ?_⟩
  · intro j hj1 hj2
    exact runEnd_chars isSpaceChar l _ j hj1 hj2
  · by_cases hEnd : runEnd isSpaceChar l
        ((runStartsF isSpaceChar l).get ⟨(pyWsMatches l).length * 4 / 5, hkm⟩) = l.length
    · exact Or.inl hEnd
    · refine Or.inr (runEnd_boundary isSpaceChar l _ ?_)
      have := runEnd_le isSpaceChar l
        ((runStartsF isSpaceChar l).get ⟨(pyWsMatches l).length * 4 / 5, hkm⟩) (by omega)
      omega
  · have he := runStartsF_eq_filter_wsStartB l
    have hkm2 : (pyWsMatches l).length * 4 / 5 <
        ((List.range l.length).filter (wsStartB l)).length := by
      rw [← he]
      exact hkm
    have hcast : (runStartsF isSpaceChar l).get ⟨(pyWsMatches l).length * 4 / 5, hkm⟩ =
        ((List.range l.length).filter (wsStartB l)).get
          ⟨(pyWsMatches l).length * 4 / 5, hkm2⟩ :=
      List.get_of_eq he _
    rw [hcast, count_below_getElem, hwm_len]

theorem split_boundary_none (l : List Char) (hpara : hasParaPairB l = false)
    (hsent : hasSentStartB l = false) (hcnt : ¬ 10 < wsRunCount l) :
    split_at_boundary l = l := by
  have hsm : pySentMatches l = [] := by
    rw [pySentMatches, sentStarts_nil l hsent]
    rfl
  rw [split_at_boundary, paraMatches_nil l hpara]
  show (if (pySentMatches l).isEmpty then _ else _) = _
  rw [hsm]
  simp only [List.isEmpty_nil, if_true]
  rw [if_neg (by rw [pyWsMatches_length, ← wsRunCount_eq]; exact hcnt)]

/-- C8 amended: a window holding a paragraph break is cut just after the last
run of two-or-more newlines (rstripped); else, a window holding a sentence
break (`.`, `!` or `?` followed by whitespace) is cut at the end of the
second-to-last such break when at least two exist, the last otherwise; else,
when the window holds more than ten whitespace runs, it is cut at the end of
whitespace run number `int(0.8 * n)` (counting runs before the cut); else the
window is returned untrimmed. -/
theorem split_boundary_spec (l : List Char) :
    (hasParaPairB l = true →
      ∃ e, 2 ≤ e ∧ e ≤ l.length ∧ split_at_boundary l = pyRstrip (l.take e) ∧
        isNlChar (l.getD (e - 2) ' ') = true ∧ isNlChar (l.getD (e - 1) ' ') = true ∧
        (e = l.length ∨ isNlChar (l.getD e ' ') = false) ∧
        (∀ j, e ≤ j → paraPairB l j = false)) ∧
    (hasParaPairB l = false → hasSentStartB l = true →
      ∃ i e, sentStartB l i = true ∧ i + 2 ≤ e ∧ e ≤ l.length ∧
        split_at_boundary l = pyRstrip (l.take e) ∧
        (∀ j, i < j → j < e → isSpaceChar (l.getD j ' ') = true) ∧
        (e = l.length ∨ isSpaceChar (l.getD e ' ') = false) ∧
        ((∃ a b, a < b ∧ sentStartB l a = true ∧ sentStartB l b = true) →
          (∃ j, e ≤ j ∧ sentStartB l j = true) ∧
          (∀ j k, e ≤ j → sentStartB l j = true → e ≤ k → sentStartB l k = true → j = k)) ∧
        ((¬ ∃ a b, a < b ∧ sentStartB l a = true ∧ sentStartB l b = true) →
          ∀ j, e ≤ j → sentStartB l j = false)) ∧
    (hasParaPairB l = false → hasSentStartB l = false → 10 < wsRunCount l →
      ∃ s e, wsStartB l s = true ∧ s < e ∧ e ≤ l.length ∧
        split_at_boundary l = pyRstrip (l.take e) ∧
        (∀ j, s ≤ j → j < e → isSpaceChar (l.getD j ' ') = true) ∧
        (e = l.length ∨ isSpaceChar (l.getD e ' ') = false) ∧
        (List.range s).countP (wsStartB l) = wsRunCount l * 4 / 5) ∧
    (hasParaPairB l = false → hasSentStartB l = false → ¬ 10 < wsRunCount l →
      split_at_boundary l = l) :=
  ⟨split_boundary_para l, split_boundary_sent l, split_boundary_word l,
    split_boundary_none l⟩

theorem split_boundary_spec_witness :
    hasParaPairB "x\n\nyy".data = true ∧
    (∃ e, 2 ≤ e ∧ e ≤ "x\n\nyy".data.length ∧
      split_at_boundary "x\n\nyy".data = pyRstrip ("x\n\nyy".data.take e) ∧
      isNlChar ("x\n\nyy".data.getD (e - 2) ' ') = true ∧
      isNlChar ("x\n\nyy".data.getD (e - 1) ' ') = true ∧
      (e = "x\n\nyy".data.length ∨ isNlChar ("x\n\nyy".data.getD e ' ') = false) ∧
      (∀ j, e ≤ j → paraPairB "x\n\nyy".data j = false)) :=
  ⟨by decide, (split_boundary_spec ("x\n\nyy".data)).1 (by decide)⟩

/-- C8 counterexample: the carved window `"aa bb cc"` of
`split_text "aa bb cc dde" 2 0` does not reach the end of the text, holds no
paragraph or sentence break, and holds two whitespace runs -- word boundaries
exist -- yet the code emits it untrimmed, because the word-boundary branch
additionally requires more than ten whitespace runs: the window equals
neither word-boundary cut (ends 3 and 6). -/
theorem split_boundary_cex :
    split_text "aa bb cc dde" 2 0 = Except.ok ["aa bb cc", "dde"] ∧
    split_at_boundary "aa bb cc".data = "aa bb cc".data ∧
    wsRunCount "aa bb cc".data = 2 ∧
    hasParaPairB "aa bb cc".data = false ∧
    hasSentStartB "aa bb cc".data = false ∧
    pyRstrip ("aa bb cc".data.take 3) ≠ "aa bb cc".data ∧
    pyRstrip ("aa bb cc".data.take 6) ≠ "aa bb cc".data := by
  refine ⟨rfl, by decide, by decide, by decide, by decide, by decide, by decide⟩
